import Mathlib

/-!
Verification of the layered configuration-resolution utilities of
`src/core/dbt/utils.py`: the recursive structural merge (`deep_merge`,
`_deep_merge`, `deep_merge_item`), the keypath-aware transform (`deep_map`,
`_deep_map`), the hierarchical lookup (`fqn_search`) and the layered mapping
view (`MultiDict.__getitem__`).

The Python values these routines operate on (the results of `yaml.safe_load`
or `json.load`) are modelled by the inductive type `Tree` below: scalars
(int, float, str, bool, None), lists, and insertion-ordered dicts with string
keys (Python 3 dicts preserve insertion order; an update of an existing key
keeps its position, a new key is appended).  `copy.deepcopy` is the identity
on such values in this value semantics; aliasing questions are treated
separately with an explicit heap model further below.  Fallible Python code
(code that can raise) is modelled with `Except`.
-/

namespace DbtUtils

/-- Scalar ("atomic") Python values: int, float, str, bool, None.
Floats are represented by rationals; none of the modelled routines ever
computes with a float, they only dispatch on its type. -/
inductive Scalar where
  | int (n : Int)
  | flt (q : Rat)
  | str (s : String)
  | bool (b : Bool)
  | null
deriving DecidableEq

/-- Tree-shaped Python values: scalars, lists, and string-keyed dicts
(association lists in insertion order, keys unique in well-formed dicts). -/
inductive Tree where
  | scalar (s : Scalar)
  | seq (xs : List Tree)
  | map (kvs : List (String × Tree))

/-- `d[k]` / `d.get(k)` on a Python dict: the value of the first entry whose
key equals `k`. -/
def dictGet (kvs : List (String × Tree)) (k : String) : Option Tree :=
  (kvs.find? (fun kv => kv.1 == k)).map Prod.snd

/-- `d[k] = v` on a Python dict: update in place if the key is present
(keeping its position), append otherwise. -/
def dictInsert : List (String × Tree) → String → Tree → List (String × Tree)
  | [], k, v => [(k, v)]
  | (k', v') :: rest, k, v =>
      if k' == k then (k', v) :: rest else (k', v') :: dictInsert rest k v

/-- Structural induction principle for `Tree` giving the hypothesis at every
member of the nested lists. -/
theorem Tree.inductionOn (P : Tree → Prop)
    (hscalar : ∀ s, P (.scalar s))
    (hseq : ∀ xs, (∀ x ∈ xs, P x) → P (.seq xs))
    (hmap : ∀ kvs, (∀ kv ∈ kvs, P kv.2) → P (.map kvs)) :
    ∀ t, P t := fun t =>
  match t with
  | .scalar s => hscalar s
  | .seq xs => hseq xs (fun x _ => Tree.inductionOn P hscalar hseq hmap x)
  | .map kvs => hmap kvs (fun kv _ => Tree.inductionOn P hscalar hseq hmap kv.2)
termination_by t => sizeOf t
decreasing_by
  · rename_i hx
    have h1 : sizeOf x < sizeOf xs := List.sizeOf_lt_of_mem hx
    simp only [Tree.seq.sizeOf_spec]
    omega
  · rename_i hkv
    have h1 : sizeOf kv < sizeOf kvs := List.sizeOf_lt_of_mem hkv
    obtain ⟨k, v⟩ := kv
    simp only [Tree.map.sizeOf_spec, Prod.mk.sizeOf_spec] at *
    omega

/-! ## `fqn_search` (HierarchicalLookup)

```python
def fqn_search(root, fqn):
    yield root
    for level in fqn:
        level_config = root.get(level, None)
        if level_config is None:
            break
        yield copy.deepcopy(level_config)
        root = level_config
```

A generator is modelled by the list of values it yields, paired with `none`
if it finishes normally and `some e` if it raises an exception after the
last yielded element.  `root.get(level, None)` requires `root` to be a dict:
on any other value the attribute lookup `.get` raises `AttributeError`.
`dict.get(level, None)` returns `None` both when the key is absent and when
the stored value is `None`, and the loop `break`s on `None`.
-/

/-- The exception `fqn_search` can raise. -/
inductive FqnErr where
  | attributeError
deriving DecidableEq

/-- The loop of `fqn_search`, starting from the current `root` with the
remaining segments. -/
def fqnSearchGo : Tree → List String → List Tree × Option FqnErr
  | _, [] => ([], none)
  | root, level :: rest =>
      match root with
      | .map kvs =>
          match dictGet kvs level with
          | none => ([], none)                  -- key absent: level_config is None, break
          | some (.scalar .null) => ([], none)  -- stored None: level_config is None, break
          | some v =>                           -- yield deepcopy(level_config); root = level_config
              let r := fqnSearchGo v rest
              (v :: r.1, r.2)
      | _ => ([], some .attributeError)         -- root.get on a non-dict raises

/-- `fqn_search(root, fqn)`: yields `root`, then descends. -/
def fqn_search (root : Tree) (fqn : List String) : List Tree × Option FqnErr :=
  let r := fqnSearchGo root fqn
  (root :: r.1, r.2)

/-- C1 (counterexample): with `root = {"a": None}` and `fqn = ["a"]` the key
`"a"` is present in the Mapping, yet `fqn_search` yields only `root` and
emits nothing for the segment — refuting the claim that a present key never
stops the descent regardless of the stored value. -/
theorem fqn_search_null_value_stops :
    (dictGet [("a", Tree.scalar .null)] "a").isSome = true ∧
    fqn_search (.map [("a", Tree.scalar .null)]) ["a"] =
      ([.map [("a", Tree.scalar .null)]], none) := by
  constructor
  · rfl
  · rfl

/-- C1 (amended): `fqn_search` yields `root` first; for a segment whose key
is present in the current Mapping with a value other than `None`, it emits
(a deep copy of) that value and continues the descent from it; it stops
emitting as soon as a segment is absent from the current Mapping **or** is
stored with value `None`. -/
theorem fqn_search_descent (kvs : List (String × Tree)) (level : String)
    (rest : List String) :
    (∀ v, dictGet kvs level = some v → v ≠ .scalar .null →
        fqn_search (.map kvs) (level :: rest) =
          (.map kvs :: (fqn_search v rest).1, (fqn_search v rest).2)) ∧
    (dictGet kvs level = none →
        fqn_search (.map kvs) (level :: rest) = ([.map kvs], none)) ∧
    (dictGet kvs level = some (.scalar .null) →
        fqn_search (.map kvs) (level :: rest) = ([.map kvs], none)) := by
  refine ⟨?_, ?_, ?_⟩
  · intro v hget hne
    cases v with
    | scalar s =>
        cases s with
        | null => exact absurd rfl hne
        | int n => simp [fqn_search, fqnSearchGo, hget]
        | flt q => simp [fqn_search, fqnSearchGo, hget]
        | str s => simp [fqn_search, fqnSearchGo, hget]
        | bool b => simp [fqn_search, fqnSearchGo, hget]
    | seq xs => simp [fqn_search, fqnSearchGo, hget]
    | map kvs' => simp [fqn_search, fqnSearchGo, hget]
  · intro hget
    simp [fqn_search, fqnSearchGo, hget]
  · intro hget
    simp [fqn_search, fqnSearchGo, hget]

/-- Witness for `fqn_search_descent`: a present, non-`None` entry is emitted
and descended into. -/
theorem fqn_search_descent_witness :
    fqn_search (.map [("a", Tree.map [("b", Tree.scalar (.int 2))])]) ["a"] =
      ([.map [("a", Tree.map [("b", Tree.scalar (.int 2))])],
        .map [("b", Tree.scalar (.int 2))]], none) := by
  have h := (fqn_search_descent [("a", Tree.map [("b", Tree.scalar (.int 2))])] "a" []).1
    (.map [("b", Tree.scalar (.int 2))]) (by rfl) (by simp)
  exact h

/-- C3 (counterexample): with `root = {"a": 5}` and `fqn = ["a", "b"]` the
descent reaches the Scalar `5` with a segment still remaining; `fqn_search`
then raises `AttributeError` (`5` has no attribute `get`) instead of
stopping cleanly — refuting the claim that it stops without raising. -/
theorem fqn_search_nonmapping_raises_example :
    fqn_search (.map [("a", Tree.scalar (.int 5))]) ["a", "b"] =
      ([.map [("a", Tree.scalar (.int 5))], .scalar (.int 5)],
        some .attributeError) := by
  rfl

/-- C3 (amended): when the current level is not a Mapping and at least one
segment of the fqn remains, `fqn_search` raises `AttributeError` (after the
elements yielded so far) rather than stopping the sequence cleanly. -/
theorem fqn_search_nonmapping_raises (v : Tree) (s : String) (rest : List String)
    (hv : ∀ kvs, v ≠ Tree.map kvs) :
    fqn_search v (s :: rest) = ([v], some .attributeError) := by
  cases v with
  | scalar sc => simp [fqn_search, fqnSearchGo]
  | seq xs => simp [fqn_search, fqnSearchGo]
  | map kvs => exact absurd rfl (hv kvs)

/-- Witness for `fqn_search_nonmapping_raises` at the Scalar `5`. -/
theorem fqn_search_nonmapping_raises_witness :
    fqn_search (Tree.scalar (.int 5)) ["x"] =
      ([Tree.scalar (.int 5)], some .attributeError) :=
  fqn_search_nonmapping_raises (Tree.scalar (.int 5)) "x" [] (by simp)

/-! ## `deep_merge` (StructuralMerge)

```python
def deep_merge(*args):
    if len(args) == 0:
        return None
    if len(args) == 1:
        return copy.deepcopy(args[0])
    lst = list(args)
    last = copy.deepcopy(lst.pop(len(lst) - 1))
    return _deep_merge(deep_merge(*lst), last)

def _deep_merge(destination, source):
    if isinstance(source, dict):
        for key, value in source.items():
            deep_merge_item(destination, key, value)
        return destination

def deep_merge_item(destination, key, value):
    if isinstance(value, dict):
        node = destination.setdefault(key, {})
        destination[key] = deep_merge(node, value)
    elif isinstance(value, tuple) or isinstance(value, list):
        if key in destination:
            destination[key] = list(value) + list(destination[key])
        else:
            destination[key] = value
    else:
        destination[key] = value
```

`copy.deepcopy` is the identity in this value semantics, so the two-argument
call `deep_merge(node, value)` inside `deep_merge_item` is exactly
`_deep_merge(node, value)`.  When `_deep_merge`'s source is not a dict the
Python function falls off its end and returns `None`.  Operations applied to
a non-dict destination raise: `.setdefault` raises `AttributeError`,
`destination[key] = ...` and `key in destination` (on a scalar) raise
`TypeError`; `list(x)` succeeds on lists (its elements), dicts (its keys)
and strings (its characters) and raises `TypeError` on other scalars.
-/

/-- Exceptions the merge can raise. -/
inductive MergeErr where
  | attributeError   -- .setdefault called on a non-dict destination
  | typeError        -- item assignment / membership / list() on an unsupported type
deriving DecidableEq

/-- `list(x)` in Python: elements of a list, keys of a dict, characters of a
string; `TypeError` on any other scalar. -/
def listOf : Tree → Except MergeErr (List Tree)
  | .seq xs => .ok xs
  | .map kvs => .ok (kvs.map (fun kv => Tree.scalar (.str kv.1)))
  | .scalar (.str s) => .ok (s.toList.map (fun c => Tree.scalar (.str c.toString)))
  | .scalar _ => .error .typeError

mutual

/-- `_deep_merge(destination, source)`: folds the items of a dict source into
the destination; on a non-dict source Python returns `None`. -/
def deepMergeInto (dest : Tree) (src : Tree) : Except MergeErr Tree :=
  match src with
  | .map kvs => deepMergeItems dest kvs
  | _ => .ok (.scalar .null)
termination_by (sizeOf src, 1)
decreasing_by
  apply Prod.Lex.left
  simp only [Tree.map.sizeOf_spec]
  omega

/-- The `for key, value in source.items(): deep_merge_item(...)` loop of
`_deep_merge`, returning the destination after all items are folded in. -/
def deepMergeItems (dest : Tree) : List (String × Tree) → Except MergeErr Tree
  | [] => .ok dest
  | (k, v) :: rest =>
      match deep_merge_item dest k v with
      | .error e => .error e
      | .ok d' => deepMergeItems d' rest
termination_by kvs => (sizeOf kvs, 0)
decreasing_by
  · apply Prod.Lex.left
    simp only [List.cons.sizeOf_spec, Prod.mk.sizeOf_spec]
    omega
  · apply Prod.Lex.left
    simp only [List.cons.sizeOf_spec, Prod.mk.sizeOf_spec]
    omega

/-- `deep_merge_item(destination, key, value)`, returning the updated
destination. -/
def deep_merge_item (dest : Tree) (k : String) (v : Tree) : Except MergeErr Tree :=
  match v with
  | .map vkvs =>
      match dest with
      | .map dkvs =>
          -- node = destination.setdefault(key, {}); destination[key] = deep_merge(node, value)
          let node := (dictGet dkvs k).getD (.map [])
          match deepMergeInto node (.map vkvs) with
          | .error e => .error e
          | .ok merged => .ok (.map (dictInsert dkvs k merged))
      | _ => .error .attributeError
  | .seq ys =>
      match dest with
      | .map dkvs =>
          match dictGet dkvs k with
          | some w =>                        -- key in destination
              match listOf w with            -- list(value) + list(destination[key])
              | .error e => .error e
              | .ok ws => .ok (.map (dictInsert dkvs k (.seq (ys ++ ws))))
          | none => .ok (.map (dictInsert dkvs k (.seq ys)))
      | _ => .error .typeError
  | _ =>
      match dest with
      | .map dkvs => .ok (.map (dictInsert dkvs k v))  -- destination[key] = value
      | _ => .error .typeError
termination_by (sizeOf v, 2)
decreasing_by
  apply Prod.Lex.right
  omega

end

@[simp]
theorem exceptOkBind {ε α β : Type} (a : α) (f : α → Except ε β) :
    (Except.ok a : Except ε α) >>= f = f a := rfl

@[simp]
theorem exceptErrorBind {ε α β : Type} (e : ε) (f : α → Except ε β) :
    (Except.error e : Except ε α) >>= f = (.error e : Except ε β) := rfl

/-! Unfolding equations for the well-founded mutual definitions, stated per
constructor shape so that `simp` can evaluate them. -/

@[simp]
theorem deepMergeInto_map (dest : Tree) (kvs : List (String × Tree)) :
    deepMergeInto dest (.map kvs) = deepMergeItems dest kvs := by
  rw [deepMergeInto.eq_def]

@[simp]
theorem deepMergeInto_scalar (dest : Tree) (s : Scalar) :
    deepMergeInto dest (.scalar s) = .ok (.scalar .null) := by
  rw [deepMergeInto.eq_def]

@[simp]
theorem deepMergeInto_seq (dest : Tree) (xs : List Tree) :
    deepMergeInto dest (.seq xs) = .ok (.scalar .null) := by
  rw [deepMergeInto.eq_def]

@[simp]
theorem deepMergeItems_nil (dest : Tree) :
    deepMergeItems dest [] = .ok dest := by
  rw [deepMergeItems.eq_def]

@[simp]
theorem deepMergeItems_cons (dest : Tree) (k : String) (v : Tree)
    (rest : List (String × Tree)) :
    deepMergeItems dest ((k, v) :: rest) =
      deep_merge_item dest k v >>= fun d' => deepMergeItems d' rest := by
  rw [deepMergeItems.eq_def]
  cases h : deep_merge_item dest k v <;> simp [h]

@[simp]
theorem deep_merge_item_map_map (dkvs : List (String × Tree)) (k : String)
    (vkvs : List (String × Tree)) :
    deep_merge_item (.map dkvs) k (.map vkvs) =
      (deepMergeInto ((dictGet dkvs k).getD (.map [])) (.map vkvs)) >>=
        fun merged => .ok (.map (dictInsert dkvs k merged)) := by
  rw [deep_merge_item.eq_def]
  cases h : deepMergeInto ((dictGet dkvs k).getD (.map [])) (.map vkvs) <;> simp [h]

@[simp]
theorem deep_merge_item_map_nonmap (dest : Tree) (k : String)
    (vkvs : List (String × Tree)) (hdest : ∀ dk, dest ≠ Tree.map dk) :
    deep_merge_item dest k (.map vkvs) = .error .attributeError := by
  rw [deep_merge_item.eq_def]
  cases dest with
  | scalar s => rfl
  | seq xs => rfl
  | map dk => exact absurd rfl (hdest dk)

@[simp]
theorem deep_merge_item_seq_map (dkvs : List (String × Tree)) (k : String)
    (ys : List Tree) :
    deep_merge_item (.map dkvs) k (.seq ys) =
      match dictGet dkvs k with
      | some w => (listOf w) >>= fun ws => .ok (.map (dictInsert dkvs k (.seq (ys ++ ws))))
      | none => .ok (.map (dictInsert dkvs k (.seq ys))) := by
  rw [deep_merge_item.eq_def]
  cases hg : dictGet dkvs k with
  | some w => cases hl : listOf w <;> simp [hg, hl]
  | none => simp [hg]

@[simp]
theorem deep_merge_item_seq_nonmap (dest : Tree) (k : String) (ys : List Tree)
    (hdest : ∀ dk, dest ≠ Tree.map dk) :
    deep_merge_item dest k (.seq ys) = .error .typeError := by
  rw [deep_merge_item.eq_def]
  cases dest with
  | scalar s => rfl
  | seq xs => rfl
  | map dk => exact absurd rfl (hdest dk)

@[simp]
theorem deep_merge_item_scalar_map (dkvs : List (String × Tree)) (k : String)
    (s : Scalar) :
    deep_merge_item (.map dkvs) k (.scalar s) =
      .ok (.map (dictInsert dkvs k (.scalar s))) := by
  rw [deep_merge_item.eq_def]

@[simp]
theorem deep_merge_item_scalar_nonmap (dest : Tree) (k : String) (s : Scalar)
    (hdest : ∀ dk, dest ≠ Tree.map dk) :
    deep_merge_item dest k (.scalar s) = .error .typeError := by
  rw [deep_merge_item.eq_def]
  cases dest with
  | scalar s' => rfl
  | seq xs => rfl
  | map dk => exact absurd rfl (hdest dk)

/-- `deep_merge(*args)`: no argument gives `None`; one argument gives (a deep
copy of) that argument; otherwise the last argument is folded into the merge
of the others. -/
def deep_merge : List Tree → Except MergeErr Tree
  | [] => .ok (.scalar .null)
  | [a] => .ok a
  | a :: b :: rest => do
      let dest ← deep_merge (a :: b :: rest).dropLast
      deepMergeInto dest ((a :: b :: rest).getLast (by simp))
termination_by args => args.length
decreasing_by
  simp only [List.length_dropLast, List.length_cons]
  omega

@[simp]
theorem exceptPureEq {ε α : Type} (a : α) : (pure a : Except ε α) = .ok a := rfl

@[simp]
theorem exceptBindPure {ε α : Type} (x : Except ε α) : x >>= pure = x := by
  cases x <;> rfl

@[simp]
theorem exceptBindOk {ε α : Type} (x : Except ε α) : x >>= Except.ok = x := by
  cases x <;> rfl

@[simp]
theorem deep_merge_nil : deep_merge [] = .ok (.scalar .null) := by
  rw [deep_merge.eq_def]

@[simp]
theorem deep_merge_single (a : Tree) : deep_merge [a] = .ok a := by
  rw [deep_merge.eq_def]

theorem deep_merge_cons_cons (a b : Tree) (rest : List Tree) :
    deep_merge (a :: b :: rest) =
      (deep_merge (a :: b :: rest).dropLast) >>=
        fun dest => deepMergeInto dest ((a :: b :: rest).getLast (by simp)) := by
  rw [deep_merge.eq_def]

/-- `deep_merge` on two or more arguments is the left fold of `_deep_merge`
over the tail. -/
theorem deep_merge_cons_eq_foldlM (a : Tree) (rest : List Tree) :
    deep_merge (a :: rest) = rest.foldlM deepMergeInto a := by
  induction rest using List.reverseRecOn generalizing a with
  | nil => simp [List.foldlM]
  | append_singleton ys y ih =>
      cases ys with
      | nil =>
          rw [show a :: ([] ++ [y]) = a :: y :: [] by simp, deep_merge_cons_cons]
          simp [List.foldlM]
      | cons b ys' =>
          rw [show a :: ((b :: ys') ++ [y]) = a :: b :: (ys' ++ [y]) by simp,
            deep_merge_cons_cons]
          have h1 : (a :: b :: (ys' ++ [y])).dropLast = a :: b :: ys' := by
            rw [show a :: b :: (ys' ++ [y]) = (a :: b :: ys') ++ [y] by simp,
              List.dropLast_concat]
          have h2 : ∀ hne, (a :: b :: (ys' ++ [y])).getLast hne = y := by
            intro hne
            rw [List.getLast_congr _ _ (show a :: b :: (ys' ++ [y]) =
              (a :: b :: ys') ++ [y] by simp), List.getLast_concat]
          rw [h1, h2, ih, List.foldlM_append]
          cases h : (b :: ys').foldlM deepMergeInto a <;> simp [h, List.foldlM]

/-- C8: `deep_merge(a, b, c)` equals `deep_merge(deep_merge(a, b), c)` —
the three-way merge folds through the intermediate two-way merge (including
agreement on the raised error when the merge fails). -/
theorem deep_merge_assoc (a b c : Tree) :
    deep_merge [a, b, c] =
      (deep_merge [a, b]) >>= (fun x => deep_merge [x, c]) := by
  rw [deep_merge_cons_eq_foldlM a [b, c], deep_merge_cons_eq_foldlM a [b]]
  simp only [List.foldlM, exceptBindPure]
  cases h : deepMergeInto a b with
  | ok x =>
      simp only [exceptOkBind]
      rw [deep_merge_cons_eq_foldlM x [c]]
      simp [List.foldlM]
  | error e =>
      simp

/-- C10 (counterexample): `deep_merge(5, {"a": 1}, 7)` has a non-Mapping
final argument, but merging the earlier arguments raises `TypeError`
(`5["a"] = 1` is an item assignment on an int), so the call raises rather
than returning `None` — refuting the claim for *every* such call. -/
theorem deep_merge_nonmap_last_error_example :
    deep_merge [Tree.scalar (.int 5), Tree.map [("a", Tree.scalar (.int 1))],
        Tree.scalar (.int 7)] = .error .typeError := by
  rw [deep_merge_cons_eq_foldlM]
  simp only [List.foldlM, deepMergeInto_map, deepMergeItems_cons]
  rw [deep_merge_item_scalar_nonmap _ _ _ (by simp)]
  rfl

/-- C10 (amended): for a call with two or more arguments whose final argument
is not a Mapping, *provided the merge of the earlier arguments raises no
error*, the result is Python `None` — not the final argument, not a merged
value.  (If the earlier merge raises, that error propagates.) -/
theorem deep_merge_nonmap_last (a : Tree) (args : List Tree) (last : Tree)
    (hlast : ∀ kvs, last ≠ Tree.map kvs) :
    deep_merge (a :: (args ++ [last])) =
      Except.map (fun _ => Tree.scalar .null) (deep_merge (a :: args)) := by
  rw [deep_merge_cons_eq_foldlM, deep_merge_cons_eq_foldlM, List.foldlM_append]
  have hnull : ∀ d : Tree, deepMergeInto d last = .ok (.scalar .null) := by
    intro d
    cases last with
    | scalar s => exact deepMergeInto_scalar d s
    | seq xs => exact deepMergeInto_seq d xs
    | map kvs => exact absurd rfl (hlast kvs)
  cases h : args.foldlM deepMergeInto a with
  | ok d => simp [h, List.foldlM, hnull d, Except.map]
  | error e => simp [h, List.foldlM, Except.map]

/-- Witness for `deep_merge_nonmap_last`: `deep_merge({"a": 1}, 7) = None`. -/
theorem deep_merge_nonmap_last_witness :
    deep_merge [Tree.map [("a", Tree.scalar (.int 1))], Tree.scalar (.int 7)] =
      .ok (.scalar .null) := by
  have h := deep_merge_nonmap_last (Tree.map [("a", Tree.scalar (.int 1))]) []
    (Tree.scalar (.int 7)) (by simp)
  rw [show [Tree.map [("a", Tree.scalar (.int 1))], Tree.scalar (.int 7)] =
    Tree.map [("a", Tree.scalar (.int 1))] :: ([] ++ [Tree.scalar (.int 7)]) by simp, h]
  simp [Except.map]

/-- C2 (counterexample): in `deep_merge({"x": {"a": 1}}, {"x": 5})` the key
`"x"` holds a Mapping in the destination and a non-Mapping in the source, yet
the merge raises no error: the scalar silently replaces the Mapping,
refuting the claim that such conflicts always fail. -/
theorem deep_merge_scalar_over_map_example :
    deep_merge [Tree.map [("x", Tree.map [("a", Tree.scalar (.int 1))])],
        Tree.map [("x", Tree.scalar (.int 5))]] =
      .ok (Tree.map [("x", Tree.scalar (.int 5))]) := by
  rw [deep_merge_cons_eq_foldlM]
  simp [List.foldlM, dictInsert]

/-- C2 (amended): the two directions of a Mapping/non-Mapping conflict at the
same key behave differently.  A non-Mapping *scalar* source value always
silently replaces whatever the destination holds at that key (including a
Mapping).  A *Mapping* source value merged onto a key whose destination value
is a non-Mapping does raise, provided the source Mapping is non-empty (an
empty one leaves the destination value untouched via the recursive merge's
`None`-source path... in fact via `_deep_merge` iterating zero items). -/
theorem deep_merge_item_type_conflict :
    (∀ (dkvs : List (String × Tree)) (k : String) (s : Scalar),
        deep_merge_item (.map dkvs) k (.scalar s) =
          .ok (.map (dictInsert dkvs k (.scalar s)))) ∧
    (∀ (dkvs : List (String × Tree)) (k : String) (w : Tree)
        (vkvs : List (String × Tree)),
        dictGet dkvs k = some w → (∀ wk, w ≠ Tree.map wk) → vkvs ≠ [] →
        ∃ e, deep_merge_item (.map dkvs) k (.map vkvs) = .error e) := by
  constructor
  · intro dkvs k s
    exact deep_merge_item_scalar_map dkvs k s
  · intro dkvs k w vkvs hget hw hne
    obtain ⟨⟨k1, v1⟩, r, rfl⟩ : ∃ p r, vkvs = p :: r := by
      cases vkvs with
      | nil => exact absurd rfl hne
      | cons p r => exact ⟨p, r, rfl⟩
    have hitem : ∃ e, deep_merge_item w k1 v1 = .error e := by
      cases v1 with
      | scalar s => exact ⟨.typeError, deep_merge_item_scalar_nonmap w k1 s hw⟩
      | seq ys => exact ⟨.typeError, deep_merge_item_seq_nonmap w k1 ys hw⟩
      | map vk => exact ⟨.attributeError, deep_merge_item_map_nonmap w k1 vk hw⟩
    obtain ⟨e, he⟩ := hitem
    refine ⟨e, ?_⟩
    rw [deep_merge_item_map_map]
    simp [hget, he]

/-- Witness for `deep_merge_item_type_conflict`: a non-empty Mapping source
value over a scalar destination value raises. -/
theorem deep_merge_item_type_conflict_witness :
    ∃ e, deep_merge_item (.map [("x", Tree.scalar (.int 1))]) "x"
        (.map [("a", Tree.scalar (.int 2))]) = .error e :=
  deep_merge_item_type_conflict.2 [("x", Tree.scalar (.int 1))] "x"
    (Tree.scalar (.int 1)) [("a", Tree.scalar (.int 2))] (by rfl) (by simp) (by simp)

theorem dictGet_nil (k : String) : dictGet [] k = none := rfl

theorem dictGet_cons (k' : String) (v' : Tree) (rest : List (String × Tree))
    (k : String) :
    dictGet ((k', v') :: rest) k = if k' = k then some v' else dictGet rest k := by
  by_cases h : k' = k <;> simp [dictGet, List.find?_cons, h]

theorem dictGet_dictInsert_self (d : List (String × Tree)) (k : String) (v : Tree) :
    dictGet (dictInsert d k v) k = some v := by
  induction d with
  | nil => simp [dictGet, dictInsert, List.find?]
  | cons kv rest ih =>
      obtain ⟨k', v'⟩ := kv
      by_cases h : k' = k
      · simp [dictInsert, h, dictGet_cons]
      · simp [dictInsert, h, dictGet_cons, ih]

theorem dictGet_dictInsert_other (d : List (String × Tree)) (k' k : String)
    (v : Tree) (hne : k' ≠ k) :
    dictGet (dictInsert d k' v) k = dictGet d k := by
  induction d with
  | nil => simp [dictInsert, dictGet_cons, hne, dictGet_nil]
  | cons kv rest ih =>
      obtain ⟨k1, v1⟩ := kv
      by_cases h : k1 = k'
      · subst h
        simp [dictInsert, dictGet_cons, hne]
      · simp [dictInsert, h, dictGet_cons, ih]

/-- A successful `deep_merge_item` on a dict destination sets exactly its own
key (to some value) and leaves the rest of the dict unchanged. -/
theorem deep_merge_item_ok_shape (d : List (String × Tree)) (k : String)
    (v : Tree) (m : Tree) (hok : deep_merge_item (.map d) k v = .ok m) :
    ∃ w, m = .map (dictInsert d k w) := by
  cases v with
  | map vkvs =>
      rw [deep_merge_item_map_map] at hok
      cases h : deepMergeInto ((dictGet d k).getD (.map [])) (.map vkvs) with
      | ok merged =>
          rw [h] at hok
          simp at hok
          exact ⟨merged, hok.symm⟩
      | error e => rw [h] at hok; simp at hok
  | seq ys =>
      rw [deep_merge_item_seq_map] at hok
      cases hg : dictGet d k with
      | some w =>
          rw [hg] at hok
          simp at hok
          cases hl : listOf w with
          | ok ws =>
              rw [hl] at hok
              simp at hok
              exact ⟨.seq (ys ++ ws), hok.symm⟩
          | error e => rw [hl] at hok; simp at hok
      | none =>
          rw [hg] at hok
          simp at hok
          exact ⟨.seq ys, hok.symm⟩
  | scalar s =>
      rw [deep_merge_item_scalar_map] at hok
      simp at hok
      exact ⟨.scalar s, hok.symm⟩

/-- Folding items none of which touches key `k` preserves the value at `k`. -/
theorem deepMergeItems_preserves (rest : List (String × Tree)) :
    ∀ (d : List (String × Tree)) (k : String) (m : Tree),
      (∀ kv ∈ rest, kv.1 ≠ k) →
      deepMergeItems (.map d) rest = .ok m →
      ∃ mkvs, m = .map mkvs ∧ dictGet mkvs k = dictGet d k := by
  induction rest with
  | nil =>
      intro d k m _ hok
      simp at hok
      exact ⟨d, hok.symm, rfl⟩
  | cons kv rest' ih =>
      intro d k m hne hok
      obtain ⟨k1, v1⟩ := kv
      rw [deepMergeItems_cons] at hok
      cases h1 : deep_merge_item (.map d) k1 v1 with
      | ok d1 =>
          rw [h1] at hok
          simp at hok
          obtain ⟨w, rfl⟩ := deep_merge_item_ok_shape d k1 v1 d1 h1
          obtain ⟨mkvs, rfl, hpres⟩ := ih (dictInsert d k1 w) k m
            (fun kv hkv => hne kv (List.mem_cons_of_mem _ hkv)) hok
          refine ⟨mkvs, rfl, ?_⟩
          rw [hpres, dictGet_dictInsert_other d k1 k w
            (hne (k1, v1) (List.mem_cons_self _ _))]
      | error e => rw [h1] at hok; simp at hok

/-- The key lemma for C4: when the source dict holds a Sequence at `k`, a
successful `_deep_merge` leaves at `k` the source elements followed by the
destination elements (or the source sequence as-is when `k` was absent). -/
theorem deepMergeItems_seq_key (skvs : List (String × Tree)) :
    ∀ (dkvs : List (String × Tree)) (k : String) (ys : List Tree) (m : Tree),
      (skvs.map Prod.fst).Nodup →
      dictGet skvs k = some (.seq ys) →
      deepMergeItems (.map dkvs) skvs = .ok m →
      ∃ mkvs, m = .map mkvs ∧
        ((∀ xs, dictGet dkvs k = some (.seq xs) →
            dictGet mkvs k = some (.seq (ys ++ xs))) ∧
          (dictGet dkvs k = none → dictGet mkvs k = some (.seq ys))) := by
  induction skvs with
  | nil =>
      intro dkvs k ys m _ hsrc _
      simp [dictGet, List.find?] at hsrc
  | cons kv rest ih =>
      intro dkvs k ys m hnd hsrc hok
      obtain ⟨k1, v1⟩ := kv
      rw [deepMergeItems_cons] at hok
      simp only [List.map_cons, List.nodup_cons] at hnd
      by_cases hk : k1 = k
      · subst hk
        rw [dictGet_cons] at hsrc
        simp at hsrc
        subst hsrc
        have hrest : ∀ kv ∈ rest, kv.1 ≠ k1 := by
          intro kv hkv hcon
          exact hnd.1 (hcon ▸ List.mem_map_of_mem Prod.fst hkv)
        cases h1 : deep_merge_item (.map dkvs) k1 (.seq ys) with
        | ok d1 =>
            rw [h1] at hok
            simp at hok
            rw [deep_merge_item_seq_map] at h1
            cases hg : dictGet dkvs k1 with
            | some w =>
                rw [hg] at h1
                simp at h1
                cases hl : listOf w with
                | ok ws =>
                    rw [hl] at h1
                    simp at h1
                    subst h1
                    obtain ⟨mkvs, rfl, hpres⟩ :=
                      deepMergeItems_preserves rest
                        (dictInsert dkvs k1 (.seq (ys ++ ws))) k1 m hrest hok
                    refine ⟨mkvs, rfl, ?_, ?_⟩
                    · intro xs hxs
                      have hw : w = .seq xs := by
                        injection hxs
                      subst hw
                      have hws : ws = xs := by
                        simp [listOf] at hl
                        exact hl.symm
                      subst hws
                      rw [hpres, dictGet_dictInsert_self]
                    · intro hnone
                      exact Option.noConfusion hnone
                | error e => rw [hl] at h1; simp at h1
            | none =>
                rw [hg] at h1
                simp at h1
                subst h1
                obtain ⟨mkvs, rfl, hpres⟩ :=
                  deepMergeItems_preserves rest
                    (dictInsert dkvs k1 (.seq ys)) k1 m hrest hok
                refine ⟨mkvs, rfl, ?_, ?_⟩
                · intro xs hxs
                  exact Option.noConfusion hxs
                · intro _
                  rw [hpres, dictGet_dictInsert_self]
        | error e => rw [h1] at hok; simp at hok
      · rw [dictGet_cons] at hsrc
        rw [if_neg hk] at hsrc
        cases h1 : deep_merge_item (.map dkvs) k1 v1 with
        | ok d1 =>
            rw [h1] at hok
            simp at hok
            obtain ⟨w, rfl⟩ := deep_merge_item_ok_shape dkvs k1 v1 d1 h1
            obtain ⟨mkvs, rfl, hconcl⟩ :=
              ih (dictInsert dkvs k1 w) k ys m hnd.2 hsrc hok
            refine ⟨mkvs, rfl, ?_, ?_⟩
            · intro xs hxs
              exact hconcl.1 xs
                (by rw [dictGet_dictInsert_other dkvs k1 k w hk, hxs])
            · intro hnone
              exact hconcl.2
                (by rw [dictGet_dictInsert_other dkvs k1 k w hk, hnone])
        | error e => rw [h1] at hok; simp at hok

/-- C4: at a key where the next source holds a Sequence, a successful merge
step produces the source's elements followed by the destination's elements
when the destination also held a value there, and the source's sequence
as-is when the key was absent from the destination; in particular
`deep_merge({"x": [1, 2]}, {"x": [3, 4]}) = {"x": [3, 4, 1, 2]}`. -/
theorem deep_merge_seq_prepend :
    (∀ (dkvs skvs : List (String × Tree)) (k : String) (ys : List Tree) (m : Tree),
      (skvs.map Prod.fst).Nodup →
      dictGet skvs k = some (.seq ys) →
      deepMergeInto (.map dkvs) (.map skvs) = .ok m →
      ∃ mkvs, m = .map mkvs ∧
        ((∀ xs, dictGet dkvs k = some (.seq xs) →
            dictGet mkvs k = some (.seq (ys ++ xs))) ∧
          (dictGet dkvs k = none → dictGet mkvs k = some (.seq ys)))) ∧
    deep_merge [Tree.map [("x", Tree.seq [Tree.scalar (.int 1), Tree.scalar (.int 2)])],
        Tree.map [("x", Tree.seq [Tree.scalar (.int 3), Tree.scalar (.int 4)])]] =
      .ok (Tree.map [("x", Tree.seq [Tree.scalar (.int 3), Tree.scalar (.int 4),
        Tree.scalar (.int 1), Tree.scalar (.int 2)])]) := by
  constructor
  · intro dkvs skvs k ys m hnd hsrc hok
    rw [deepMergeInto_map] at hok
    exact deepMergeItems_seq_key skvs dkvs k ys m hnd hsrc hok
  · rw [deep_merge_cons_eq_foldlM]
    simp [List.foldlM, dictGet, List.find?, listOf, dictInsert]

/-- Witness for `deep_merge_seq_prepend`: its general part applied at
`{"x": [1]}` and `{"x": [3]}`. -/
theorem deep_merge_seq_prepend_witness :
    ∃ mkvs, (Tree.map [("x", Tree.seq [Tree.scalar (.int 3), Tree.scalar (.int 1)])]) =
        .map mkvs ∧
      ((∀ xs, dictGet [("x", Tree.seq [Tree.scalar (.int 1)])] "x" = some (.seq xs) →
          dictGet mkvs "x" = some (.seq (Tree.scalar (.int 3) :: xs))) ∧
        (dictGet [("x", Tree.seq [Tree.scalar (.int 1)])] "x" = none →
          dictGet mkvs "x" = some (.seq [Tree.scalar (.int 3)]))) :=
  deep_merge_seq_prepend.1 [("x", Tree.seq [Tree.scalar (.int 1)])]
    [("x", Tree.seq [Tree.scalar (.int 3)])] "x" [Tree.scalar (.int 3)]
    (Tree.map [("x", Tree.seq [Tree.scalar (.int 3), Tree.scalar (.int 1)])])
    (by simp) (by simp [dictGet, List.find?])
    (by simp [dictGet, List.find?, listOf, dictInsert])

/-! ## `deep_map` (KeypathTransform)

```python
def _deep_map(func, value, keypath):
    atomic_types = (int, float, str, type(None), bool)
    if isinstance(value, list):
        ret = [_deep_map(func, v, (keypath + (idx,))) for idx, v in enumerate(value)]
    elif isinstance(value, dict):
        ret = {k: _deep_map(func, v, (keypath + (str(k),))) for k, v in value.items()}
    elif isinstance(value, atomic_types):
        ret = func(value, keypath)
    else:
        raise dbt.exceptions.DbtConfigError(...)
    return ret

def deep_map(func, value):
    try:
        return _deep_map(func, value, ())
    except RuntimeError as exc:
        if 'maximum recursion depth exceeded' in str(exc):
            raise dbt.exceptions.RecursionException('Cycle detected in deep_map')
        raise
```

On acyclic `Tree` values (the well-formed inputs) the recursion always
terminates and the `except RuntimeError` handler of `deep_map` never fires,
so `deep_map` is `_deep_map(func, value, ())`; keys are already strings so
`str(k)` is the identity.  The ShapeError branch is unreachable on `Tree`
(whose constructors are exactly the expected types); it and the cycle
handler are modelled separately on the object-graph embedding further below.
`func`'s result is placed in the output as-is, so it is modelled with result
type `Tree` (Python `Any`). -/

/-- One segment of a keypath: a dict key (stringified) or a list index. -/
inductive PathSeg where
  | key (k : String)
  | idx (i : Nat)
deriving DecidableEq

mutual

/-- `_deep_map(func, value, keypath)` on Tree values. -/
def deepMapT (f : Scalar → List PathSeg → Tree) : Tree → List PathSeg → Tree
  | .seq xs, p => .seq (deepMapTList f xs p 0)
  | .map kvs, p => .map (deepMapTDict f kvs p)
  | .scalar s, p => f s p
termination_by t => sizeOf t
decreasing_by
  · simp only [Tree.seq.sizeOf_spec]
    omega
  · simp only [Tree.map.sizeOf_spec]
    omega

/-- The list comprehension over `enumerate(value)`, with `i` the index of the
first element. -/
def deepMapTList (f : Scalar → List PathSeg → Tree) :
    List Tree → List PathSeg → Nat → List Tree
  | [], _, _ => []
  | x :: xs, p, i => deepMapT f x (p ++ [.idx i]) :: deepMapTList f xs p (i + 1)
termination_by xs => sizeOf xs
decreasing_by
  · simp only [List.cons.sizeOf_spec]
    omega
  · simp only [List.cons.sizeOf_spec]
    omega

/-- The dict comprehension over `value.items()`. -/
def deepMapTDict (f : Scalar → List PathSeg → Tree) :
    List (String × Tree) → List PathSeg → List (String × Tree)
  | [], _ => []
  | (k, v) :: kvs, p => (k, deepMapT f v (p ++ [.key k])) :: deepMapTDict f kvs p
termination_by kvs => sizeOf kvs
decreasing_by
  · simp only [List.cons.sizeOf_spec, Prod.mk.sizeOf_spec]
    omega
  · simp only [List.cons.sizeOf_spec, Prod.mk.sizeOf_spec]
    omega

end

/-- `deep_map(func, value)` on acyclic Tree values. -/
def deep_map (f : Scalar → List PathSeg → Tree) (t : Tree) : Tree :=
  deepMapT f t []

@[simp]
theorem deepMapT_scalar (f : Scalar → List PathSeg → Tree) (s : Scalar)
    (p : List PathSeg) : deepMapT f (.scalar s) p = f s p := by
  rw [deepMapT.eq_def]

@[simp]
theorem deepMapT_seq (f : Scalar → List PathSeg → Tree) (xs : List Tree)
    (p : List PathSeg) : deepMapT f (.seq xs) p = .seq (deepMapTList f xs p 0) := by
  rw [deepMapT.eq_def]

@[simp]
theorem deepMapT_map (f : Scalar → List PathSeg → Tree)
    (kvs : List (String × Tree)) (p : List PathSeg) :
    deepMapT f (.map kvs) p = .map (deepMapTDict f kvs p) := by
  rw [deepMapT.eq_def]

@[simp]
theorem deepMapTList_nil (f : Scalar → List PathSeg → Tree) (p : List PathSeg)
    (i : Nat) : deepMapTList f [] p i = [] := by
  rw [deepMapTList.eq_def]

@[simp]
theorem deepMapTList_cons (f : Scalar → List PathSeg → Tree) (x : Tree)
    (xs : List Tree) (p : List PathSeg) (i : Nat) :
    deepMapTList f (x :: xs) p i =
      deepMapT f x (p ++ [.idx i]) :: deepMapTList f xs p (i + 1) := by
  rw [deepMapTList.eq_def]

@[simp]
theorem deepMapTDict_nil (f : Scalar → List PathSeg → Tree) (p : List PathSeg) :
    deepMapTDict f [] p = [] := by
  rw [deepMapTDict.eq_def]

@[simp]
theorem deepMapTDict_cons (f : Scalar → List PathSeg → Tree) (k : String)
    (v : Tree) (kvs : List (String × Tree)) (p : List PathSeg) :
    deepMapTDict f ((k, v) :: kvs) p =
      (k, deepMapT f v (p ++ [.key k])) :: deepMapTDict f kvs p := by
  rw [deepMapTDict.eq_def]

mutual

/-- The shape of a Tree: the same nesting structure with every scalar leaf
replaced by `null`.  Two Trees have identical Mapping/Sequence structure
(keys, ordering, nesting) iff their shapes are equal. -/
def shapeOf : Tree → Tree
  | .scalar _ => .scalar .null
  | .seq xs => .seq (shapeOfList xs)
  | .map kvs => .map (shapeOfDict kvs)
termination_by t => sizeOf t
decreasing_by
  · simp only [Tree.seq.sizeOf_spec]
    omega
  · simp only [Tree.map.sizeOf_spec]
    omega

def shapeOfList : List Tree → List Tree
  | [] => []
  | x :: xs => shapeOf x :: shapeOfList xs
termination_by xs => sizeOf xs
decreasing_by
  · simp only [List.cons.sizeOf_spec]
    omega
  · simp only [List.cons.sizeOf_spec]
    omega

def shapeOfDict : List (String × Tree) → List (String × Tree)
  | [] => []
  | (k, v) :: kvs => (k, shapeOf v) :: shapeOfDict kvs
termination_by kvs => sizeOf kvs
decreasing_by
  · simp only [List.cons.sizeOf_spec, Prod.mk.sizeOf_spec]
    omega
  · simp only [List.cons.sizeOf_spec, Prod.mk.sizeOf_spec]
    omega

end

@[simp]
theorem shapeOf_scalar (s : Scalar) : shapeOf (.scalar s) = .scalar .null := by
  rw [shapeOf.eq_def]

@[simp]
theorem shapeOf_seq (xs : List Tree) : shapeOf (.seq xs) = .seq (shapeOfList xs) := by
  rw [shapeOf.eq_def]

@[simp]
theorem shapeOf_map (kvs : List (String × Tree)) :
    shapeOf (.map kvs) = .map (shapeOfDict kvs) := by
  rw [shapeOf.eq_def]

@[simp]
theorem shapeOfList_nil : shapeOfList [] = [] := by
  rw [shapeOfList.eq_def]

@[simp]
theorem shapeOfList_cons (x : Tree) (xs : List Tree) :
    shapeOfList (x :: xs) = shapeOf x :: shapeOfList xs := by
  rw [shapeOfList.eq_def]

@[simp]
theorem shapeOfDict_nil : shapeOfDict [] = [] := by
  rw [shapeOfDict.eq_def]

@[simp]
theorem shapeOfDict_cons (k : String) (v : Tree) (kvs : List (String × Tree)) :
    shapeOfDict ((k, v) :: kvs) = (k, shapeOf v) :: shapeOfDict kvs := by
  rw [shapeOfDict.eq_def]

/-- Navigate a Tree along a keypath (the `__getitem__` chain the keypath
denotes). -/
def getAt : List PathSeg → Tree → Option Tree
  | [], t => some t
  | .idx i :: p, .seq xs => (xs.get? i).bind (getAt p)
  | .key k :: p, .map kvs => (dictGet kvs k).bind (getAt p)
  | _ :: _, .scalar _ => none
  | .idx _ :: _, .map _ => none
  | .key _ :: _, .seq _ => none

/-- A keypath as the Python tuple value `func` receives (str and int
segments). -/
def keypathTree (p : List PathSeg) : Tree :=
  .seq (p.map fun seg => match seg with
    | .key k => Tree.scalar (.str k)
    | .idx i => Tree.scalar (.int (Int.ofNat i)))

theorem shapeOf_deepMapT (g : Scalar → List PathSeg → Scalar) (t : Tree) :
    ∀ p, shapeOf (deepMapT (fun s q => Tree.scalar (g s q)) t p) = shapeOf t := by
  induction t using Tree.inductionOn with
  | hscalar s => intro p; simp
  | hseq xs ih =>
      intro p
      simp only [deepMapT_seq, shapeOf_seq]
      congr 1
      have : ∀ (ys : List Tree), (∀ x ∈ ys, ∀ q,
          shapeOf (deepMapT (fun s q => Tree.scalar (g s q)) x q) = shapeOf x) →
          ∀ i, shapeOfList (deepMapTList (fun s q => Tree.scalar (g s q)) ys p i) =
            shapeOfList ys := by
        intro ys
        induction ys with
        | nil => intro _ _; simp
        | cons y ys' ihy =>
            intro hmem i
            simp only [deepMapTList_cons, shapeOfList_cons]
            have h1 := hmem y (List.mem_cons_self _ _) (p ++ [PathSeg.idx i])
            have h2 := ihy (fun x hx => hmem x (List.mem_cons_of_mem _ hx)) (i + 1)
            rw [h1, h2]
      exact this xs ih 0
  | hmap kvs ih =>
      intro p
      simp only [deepMapT_map, shapeOf_map]
      congr 1
      have : ∀ (es : List (String × Tree)), (∀ kv ∈ es, ∀ q,
          shapeOf (deepMapT (fun s q => Tree.scalar (g s q)) kv.2 q) = shapeOf kv.2) →
          shapeOfDict (deepMapTDict (fun s q => Tree.scalar (g s q)) es p) =
            shapeOfDict es := by
        intro es
        induction es with
        | nil => intro _; simp
        | cons kv es' ihe =>
            intro hmem
            obtain ⟨k, v⟩ := kv
            simp only [deepMapTDict_cons, shapeOfDict_cons]
            have h1 : shapeOf (deepMapT (fun s q => Tree.scalar (g s q)) v
                (p ++ [PathSeg.key k])) = shapeOf v :=
              hmem (k, v) (List.mem_cons_self _ _) (p ++ [PathSeg.key k])
            have h2 := ihe (fun x hx => hmem x (List.mem_cons_of_mem _ hx))
            rw [h1, h2]
      exact this kvs ih

theorem deepMapTList_get? (f : Scalar → List PathSeg → Tree) (xs : List Tree) :
    ∀ (p : List PathSeg) (j i : Nat),
      (deepMapTList f xs p j).get? i =
        (xs.get? i).map (fun x => deepMapT f x (p ++ [.idx (j + i)])) := by
  induction xs with
  | nil => intro p j i; simp
  | cons x xs' ih =>
      intro p j i
      cases i with
      | zero => simp
      | succ i' =>
          simp only [deepMapTList_cons, List.get?_cons_succ]
          rw [ih p (j + 1) i']
          have hj : j + 1 + i' = j + (i' + 1) := by omega
          rw [hj]

theorem deepMapTDict_dictGet (f : Scalar → List PathSeg → Tree)
    (kvs : List (String × Tree)) :
    ∀ (p : List PathSeg) (k : String),
      dictGet (deepMapTDict f kvs p) k =
        (dictGet kvs k).map (fun v => deepMapT f v (p ++ [.key k])) := by
  induction kvs with
  | nil => intro p k; simp [dictGet_nil]
  | cons kv rest ih =>
      intro p k
      obtain ⟨k1, v1⟩ := kv
      by_cases h : k1 = k
      · subst h
        simp [deepMapTDict_cons, dictGet_cons]
      · simp [deepMapTDict_cons, dictGet_cons, h, ih]

theorem getAt_deepMapT (g : Scalar → List PathSeg → Scalar) (path : List PathSeg) :
    ∀ (t : Tree) (p0 : List PathSeg) (s : Scalar),
      getAt path t = some (.scalar s) →
      getAt path (deepMapT (fun v q => Tree.scalar (g v q)) t p0) =
        some (.scalar (g s (p0 ++ path))) := by
  induction path with
  | nil =>
      intro t p0 s hget
      simp only [getAt] at hget
      injection hget with hget
      subst hget
      simp [getAt]
  | cons seg rest ih =>
      intro t p0 s hget
      cases seg with
      | idx i =>
          cases t with
          | scalar sc => simp [getAt] at hget
          | map kvs => simp [getAt] at hget
          | seq xs =>
              simp only [getAt] at hget
              obtain ⟨x, hx, hrest⟩ := Option.bind_eq_some.mp hget
              simp only [deepMapT_seq, getAt]
              rw [deepMapTList_get? _ _ _ 0 i, hx]
              have hih := ih x (p0 ++ [PathSeg.idx i]) s hrest
              simp [hih, List.append_assoc]
      | key k =>
          cases t with
          | scalar sc => simp [getAt] at hget
          | seq xs => simp [getAt] at hget
          | map kvs =>
              simp only [getAt] at hget
              obtain ⟨v, hv, hrest⟩ := Option.bind_eq_some.mp hget
              simp only [deepMapT_map, getAt]
              rw [deepMapTDict_dictGet, hv]
              have hih := ih v (p0 ++ [PathSeg.key k]) s hrest
              simp [hih, List.append_assoc]

/-- C5: `deep_map(fn, t)` preserves the Mapping/Sequence structure of `t`
exactly (equal shapes) and replaces every Scalar leaf `v` at keypath `p`
(dict keys and list indices from the root) by `fn(v, p)`; moreover the
spec's keypath example holds:
`transform(lambda v, p: p, {"a": [10, 20]}) = {"a": [("a", 0), ("a", 1)]}`. -/
theorem deep_map_shape_and_leaves (fn : Scalar → List PathSeg → Scalar) (t : Tree) :
    shapeOf (deep_map (fun v q => Tree.scalar (fn v q)) t) = shapeOf t ∧
    (∀ (path : List PathSeg) (s : Scalar),
      getAt path t = some (.scalar s) →
      getAt path (deep_map (fun v q => Tree.scalar (fn v q)) t) =
        some (.scalar (fn s path))) ∧
    deep_map (fun _ q => keypathTree q)
        (.map [("a", Tree.seq [Tree.scalar (.int 10), Tree.scalar (.int 20)])]) =
      .map [("a", Tree.seq
        [Tree.seq [Tree.scalar (.str "a"), Tree.scalar (.int 0)],
          Tree.seq [Tree.scalar (.str "a"), Tree.scalar (.int 1)]])] := by
  refine ⟨shapeOf_deepMapT fn t [], ?_, ?_⟩
  · intro path s hget
    have h := getAt_deepMapT fn path t [] s hget
    simpa using h
  · simp [deep_map, keypathTree]

/-- Witness for `deep_map_shape_and_leaves`: the leaf clause applied to the
identity function on `{"a": [10]}` at path `("a", 0)`. -/
theorem deep_map_shape_and_leaves_witness :
    getAt [.key "a", .idx 0]
        (deep_map (fun v _ => Tree.scalar v)
          (.map [("a", Tree.seq [Tree.scalar (.int 10)])])) =
      some (.scalar (.int 10)) :=
  (deep_map_shape_and_leaves (fun v _ => v)
      (.map [("a", Tree.seq [Tree.scalar (.int 10)])])).2.1
    [.key "a", .idx 0] (.int 10)
    (by simp [getAt, dictGet_cons])

/-! ## `MultiDict.__getitem__` (LayeredView)

```python
def _itersource(self):
    return reversed(self.sources)

def __getitem__(self, name):
    for entry in self._itersource():
        if name in entry:
            return entry[name]
    raise KeyError(name)
```

A `MultiDict` is represented by its `sources` list (in append order; `add`
appends, so the last element is the most recently added).  `__getitem__`
scans `reversed(sources)` and returns the first hit, raising `KeyError`
when no source contains the key. -/

/-- The exception `MultiDict.__getitem__` can raise. -/
inductive LookupErr where
  | keyError (name : String)
deriving DecidableEq

/-- The `for entry in ...: if name in entry: return entry[name]` scan over a
list of sources in the given order. -/
def scanSources : List (List (String × Tree)) → String → Option Tree
  | [], _ => none
  | entry :: rest, name =>
      match dictGet entry name with
      | some v => some v
      | none => scanSources rest name

/-- `MultiDict.__getitem__` over the sources in append order. -/
def multidict_getitem (sources : List (List (String × Tree))) (name : String) :
    Except LookupErr Tree :=
  match scanSources sources.reverse name with
  | some v => .ok v
  | none => .error (.keyError name)

/-- The spec's wording of the lookup order, written as its own recursion:
check the sources appended after `entry` first (they are more recent), and
fall back to `entry` itself only if none of them contains the key. -/
def lookupMostRecentFirst : List (List (String × Tree)) → String → Option Tree
  | [], _ => none
  | entry :: laterSources, name =>
      match lookupMostRecentFirst laterSources name with
      | some v => some v
      | none => dictGet entry name

theorem scanSources_append (xs ys : List (List (String × Tree))) (name : String) :
    scanSources (xs ++ ys) name =
      match scanSources xs name with
      | some v => some v
      | none => scanSources ys name := by
  induction xs with
  | nil => simp [scanSources]
  | cons entry rest ih =>
      simp only [List.cons_append, scanSources]
      cases dictGet entry name <;> simp [ih]

theorem scanSources_reverse_eq (sources : List (List (String × Tree)))
    (name : String) :
    scanSources sources.reverse name = lookupMostRecentFirst sources name := by
  induction sources with
  | nil => rfl
  | cons entry rest ih =>
      simp only [List.reverse_cons, lookupMostRecentFirst]
      rw [scanSources_append, ih]
      cases lookupMostRecentFirst rest name with
      | some v => simp [scanSources]
      | none =>
          simp only [scanSources]
          cases dictGet entry name <;> rfl

theorem lookupMostRecentFirst_none_iff (sources : List (List (String × Tree)))
    (name : String) :
    lookupMostRecentFirst sources name = none ↔
      ∀ entry ∈ sources, dictGet entry name = none := by
  induction sources with
  | nil => simp [lookupMostRecentFirst]
  | cons entry rest ih =>
      simp only [lookupMostRecentFirst]
      cases h : lookupMostRecentFirst rest name with
      | some v =>
          simp only []
          constructor
          · intro hcon
            exact absurd hcon (by simp)
          · intro hall
            rw [ih.mpr (fun e he => hall e (List.mem_cons_of_mem _ he))] at h
            exact Option.noConfusion h
      | none =>
          simp only [List.mem_cons]
          constructor
          · intro hget e he
            rcases he with rfl | he
            · exact hget
            · exact (ih.mp h) e he
          · intro hall
            exact hall entry (Or.inl rfl)

/-- C6: `MultiDict.__getitem__` scans the sources from most-recently-appended
to least-recently-appended, returns the value from the first source
containing the key, and raises `KeyError` iff no source contains it; with
sources `[{"x": 1}, {"x": 2}]` it returns `2`, and after appending
`{"x": 3}` it returns `3`. -/
theorem multidict_getitem_spec :
    (∀ (sources : List (List (String × Tree))) (name : String),
      multidict_getitem sources name =
        (match lookupMostRecentFirst sources name with
          | some v => .ok v
          | none => .error (.keyError name)) ∧
      (multidict_getitem sources name = .error (.keyError name) ↔
        ∀ entry ∈ sources, dictGet entry name = none)) ∧
    multidict_getitem [[("x", Tree.scalar (.int 1))], [("x", Tree.scalar (.int 2))]]
        "x" = .ok (Tree.scalar (.int 2)) ∧
    multidict_getitem ([[("x", Tree.scalar (.int 1))], [("x", Tree.scalar (.int 2))]]
        ++ [[("x", Tree.scalar (.int 3))]]) "x" = .ok (Tree.scalar (.int 3)) := by
  refine ⟨?_, by rfl, by rfl⟩
  intro sources name
  constructor
  · rw [multidict_getitem, scanSources_reverse_eq]
  · rw [multidict_getitem, scanSources_reverse_eq]
    cases h : lookupMostRecentFirst sources name with
    | some v =>
        simp only []
        constructor
        · intro hcon
          exact Except.noConfusion hcon
        · intro hall
          rw [(lookupMostRecentFirst_none_iff sources name).mpr hall] at h
          exact Option.noConfusion h
    | none =>
        simp only []
        constructor
        · intro _
          exact (lookupMostRecentFirst_none_iff sources name).mp h
        · intro _
          trivial

/-! ## Aliasing model for `deep_merge(x)` (C7)

Value semantics cannot express "shares no mutable container", so Python
object identity is modelled explicitly: a `Heap` is a list of nodes
addressed by position, a list/dict node holds the addresses of its element
values, and `Represents h a t` says address `a` in heap `h` is the root of
an object graph representing the Tree `t`.  Allocation appends to the heap,
so an address is "fresh relative to `h`" iff it is `≥ h.length`. -/

/-- A Python object: a scalar, a list of value addresses, or a dict of
key/value-address entries. -/
inductive PyNode where
  | scalar (s : Scalar)
  | lst (elems : List Nat)
  | dct (entries : List (String × Nat))

/-- An object heap: node `a` is `h[a]`. -/
abbrev Heap := List PyNode

/-- The node stored at address `a`, if `a` is allocated. -/
def heapNode (h : Heap) (a : Nat) : Option PyNode := h[a]?

/-- `b` is the address of a direct element value of the container at `a`. -/
def childOf (h : Heap) (a b : Nat) : Prop :=
  match heapNode h a with
  | some (.lst as) => b ∈ as
  | some (.dct es) => b ∈ es.map Prod.snd
  | _ => False

/-- Address `b` is reachable from address `a` through container elements. -/
def Reaches (h : Heap) : Nat → Nat → Prop := Relation.ReflTransGen (childOf h)

/-- Address `a` of heap `h` represents the Tree `t`. -/
inductive Represents (h : Heap) : Nat → Tree → Prop where
  | scalar {a : Nat} {s : Scalar} :
      heapNode h a = some (.scalar s) → Represents h a (.scalar s)
  | seq {a : Nat} {as : List Nat} {xs : List Tree} :
      heapNode h a = some (.lst as) → as.length = xs.length →
      (∀ p ∈ as.zip xs, Represents h p.1 p.2) → Represents h a (.seq xs)
  | map {a : Nat} {es : List (String × Nat)} {kvs : List (String × Tree)} :
      heapNode h a = some (.dct es) → es.length = kvs.length →
      (∀ p ∈ es.zip kvs, p.1.1 = p.2.1) →
      (∀ p ∈ es.zip kvs, Represents h p.1.2 p.2.2) → Represents h a (.map kvs)

/-- `h'` extends `h` by newly allocated nodes. -/
def HeapExt (h h' : Heap) : Prop := ∃ ext, h' = h ++ ext

/-- Every container allocated at or beyond `h.length` points only at
addresses at or beyond `h.length` (freshly allocated structure is closed). -/
def FreshClosed (h h' : Heap) : Prop :=
  ∀ b c, h.length ≤ b → childOf h' b c → h.length ≤ c

theorem heapExt_refl (h : Heap) : HeapExt h h := ⟨[], by simp⟩

theorem heapExt_trans {h h' h'' : Heap} (h1 : HeapExt h h') (h2 : HeapExt h' h'') :
    HeapExt h h'' := by
  obtain ⟨e1, rfl⟩ := h1
  obtain ⟨e2, rfl⟩ := h2
  exact ⟨e1 ++ e2, by simp⟩

theorem heapExt_length {h h' : Heap} (hext : HeapExt h h') : h.length ≤ h'.length := by
  obtain ⟨e, rfl⟩ := hext
  simp

theorem heapNode_lt_length {h : Heap} {a : Nat} {nd : PyNode}
    (hnd : heapNode h a = some nd) : a < h.length := by
  by_contra hc
  rw [heapNode, List.getElem?_eq_none (by omega)] at hnd
  exact Option.noConfusion hnd

theorem heapNode_ext {h h' : Heap} (hext : HeapExt h h') {a : Nat}
    (ha : a < h.length) : heapNode h' a = heapNode h a := by
  obtain ⟨e, rfl⟩ := hext
  rw [heapNode, heapNode, List.getElem?_append_left ha]

theorem childOf_ext {h h' : Heap} (hext : HeapExt h h') {a : Nat}
    (ha : a < h.length) (b : Nat) : childOf h' a b ↔ childOf h a b := by
  rw [childOf, childOf, heapNode_ext hext ha]

theorem represents_node {h : Heap} {a : Nat} {t : Tree}
    (hrep : Represents h a t) : ∃ nd, heapNode h a = some nd := by
  cases hrep with
  | scalar hnd => exact ⟨_, hnd⟩
  | seq hnd _ _ => exact ⟨_, hnd⟩
  | map hnd _ _ _ => exact ⟨_, hnd⟩

theorem represents_lt_length {h : Heap} {a : Nat} {t : Tree}
    (hrep : Represents h a t) : a < h.length := by
  obtain ⟨nd, hnd⟩ := represents_node hrep
  exact heapNode_lt_length hnd

/-- Representation is stable under allocating more nodes. -/
theorem represents_ext {h h' : Heap} (hext : HeapExt h h') {a : Nat} {t : Tree}
    (hrep : Represents h a t) : Represents h' a t := by
  induction hrep with
  | scalar hnd =>
      exact .scalar (by rw [heapNode_ext hext (heapNode_lt_length hnd)]; exact hnd)
  | seq hnd hlen _ ih =>
      exact .seq (by rw [heapNode_ext hext (heapNode_lt_length hnd)]; exact hnd)
        hlen ih
  | map hnd hlen hkeys _ ih =>
      exact .map (by rw [heapNode_ext hext (heapNode_lt_length hnd)]; exact hnd)
        hlen hkeys ih

theorem zip_pair_of_mem {α β : Type} (as : List α) :
    ∀ (xs : List β) (a : α), as.length = xs.length → a ∈ as →
      ∃ x, (a, x) ∈ as.zip xs := by
  induction as with
  | nil => intro xs a _ ha; exact absurd ha (by simp)
  | cons a0 as' ih =>
      intro xs a hlen ha
      cases xs with
      | nil => simp at hlen
      | cons x0 xs' =>
          rcases List.mem_cons.mp ha with rfl | ha'
          · exact ⟨x0, by simp⟩
          · obtain ⟨x, hx⟩ := ih xs' a (by simpa using hlen) ha'
            exact ⟨x, List.mem_cons_of_mem _ hx⟩

/-- A child of a represented container is itself represented (by the
corresponding subtree). -/
theorem represents_child {h : Heap} {a b : Nat} {t : Tree}
    (hrep : Represents h a t) (hchild : childOf h a b) :
    ∃ t', Represents h b t' := by
  cases hrep with
  | scalar hnd => rw [childOf, hnd] at hchild; exact absurd hchild (by simp)
  | seq hnd hlen hmem =>
      rw [childOf, hnd] at hchild
      obtain ⟨x, hx⟩ := zip_pair_of_mem _ _ _ hlen hchild
      exact ⟨x, hmem (b, x) hx⟩
  | map hnd hlen _ hmem =>
      rw [childOf, hnd] at hchild
      simp only [List.mem_map] at hchild
      obtain ⟨e, he, rfl⟩ := hchild
      obtain ⟨kv, hkv⟩ := zip_pair_of_mem _ _ e hlen he
      exact ⟨kv.2, hmem (e, kv) hkv⟩

/-- Everything reachable from a represented root is represented. -/
theorem reaches_represented {h : Heap} {a : Nat} {t : Tree}
    (hrep : Represents h a t) : ∀ b, Reaches h a b → ∃ t', Represents h b t' := by
  intro b hr
  induction hr with
  | refl => exact ⟨t, hrep⟩
  | tail _ hstep ih =>
      obtain ⟨t', ht'⟩ := ih
      exact represents_child ht' hstep

theorem reaches_lt_length {h : Heap} {a : Nat} {t : Tree}
    (hrep : Represents h a t) {b : Nat} (hr : Reaches h a b) : b < h.length := by
  obtain ⟨t', ht'⟩ := reaches_represented hrep b hr
  exact represents_lt_length ht'

/-- Reachability from an old represented root is unaffected by allocating
more nodes. -/
theorem reaches_of_ext {h h' : Heap} (hext : HeapExt h h') {a : Nat} {t : Tree}
    (hrep : Represents h a t) : ∀ b, Reaches h' a b → Reaches h a b := by
  intro b hr
  induction hr with
  | refl => exact Relation.ReflTransGen.refl
  | tail _ hstep ih =>
      rename_i b' c _
      have hb' : b' < h.length := reaches_lt_length hrep ih
      exact Relation.ReflTransGen.tail ih ((childOf_ext hext hb' c).mp hstep)

theorem freshClosed_reaches {h h' : Heap} (hfc : FreshClosed h h') {a : Nat}
    (ha : h.length ≤ a) : ∀ b, Reaches h' a b → h.length ≤ b := by
  intro b hr
  induction hr with
  | refl => exact ha
  | tail _ hstep ih => exact hfc _ _ ih hstep

theorem freshClosed_trans {h h' h'' : Heap} (hext1 : HeapExt h h')
    (hext2 : HeapExt h' h'') (h1 : FreshClosed h h') (h2 : FreshClosed h' h'') :
    FreshClosed h h'' := by
  intro b c hb hchild
  by_cases hb' : b < h'.length
  · exact h1 b c hb ((childOf_ext hext2 hb' c).mp hchild)
  · exact le_trans (heapExt_length hext1) (h2 b c (by omega) hchild)

/-- Appending one node whose children all lie in `[h.length, ...)` (or a
childless node) keeps the fresh region closed. -/
theorem freshClosed_concat {h h' : Heap} (_hext : HeapExt h h')
    (hfc : FreshClosed h h') (nd : PyNode)
    (hnd : ∀ c, (match nd with
      | .lst as => c ∈ as
      | .dct es => c ∈ es.map Prod.snd
      | _ => False) → h.length ≤ c) :
    FreshClosed h (h' ++ [nd]) := by
  intro b c hb hchild
  rcases Nat.lt_trichotomy b h'.length with hlt | heq | hgt
  · exact hfc b c hb ((childOf_ext ⟨[nd], rfl⟩ hlt c).mp hchild)
  · rw [childOf, heapNode, heq, List.getElem?_concat_length] at hchild
    exact hnd c (by cases nd <;> exact hchild)
  · rw [childOf, heapNode, List.getElem?_eq_none (by simp; omega)] at hchild
    exact absurd hchild (by simp)

mutual

/-- Allocate a fresh object graph representing `t` at the end of `h`,
returning the extended heap and the address of the new root. -/
def allocTree : Tree → Heap → Heap × Nat
  | .scalar s, h => (h ++ [.scalar s], h.length)
  | .seq xs, h =>
      match allocTreeList xs h with
      | (h1, as) => (h1 ++ [.lst as], h1.length)
  | .map kvs, h =>
      match allocTreeDict kvs h with
      | (h1, es) => (h1 ++ [.dct es], h1.length)
termination_by t => sizeOf t
decreasing_by
  · simp only [Tree.seq.sizeOf_spec]
    omega
  · simp only [Tree.map.sizeOf_spec]
    omega

def allocTreeList : List Tree → Heap → Heap × List Nat
  | [], h => (h, [])
  | x :: xs, h =>
      match allocTree x h with
      | (h1, a) =>
          match allocTreeList xs h1 with
          | (h2, as) => (h2, a :: as)
termination_by xs => sizeOf xs
decreasing_by
  · simp only [List.cons.sizeOf_spec]
    omega
  · simp only [List.cons.sizeOf_spec]
    omega

def allocTreeDict : List (String × Tree) → Heap → Heap × List (String × Nat)
  | [], h => (h, [])
  | (k, v) :: kvs, h =>
      match allocTree v h with
      | (h1, a) =>
          match allocTreeDict kvs h1 with
          | (h2, es) => (h2, (k, a) :: es)
termination_by kvs => sizeOf kvs
decreasing_by
  · simp only [List.cons.sizeOf_spec, Prod.mk.sizeOf_spec]
    omega
  · simp only [List.cons.sizeOf_spec, Prod.mk.sizeOf_spec]
    omega

end

@[simp]
theorem allocTree_scalar (s : Scalar) (h : Heap) :
    allocTree (.scalar s) h = (h ++ [.scalar s], h.length) := by
  rw [allocTree.eq_def]

@[simp]
theorem allocTree_seq (xs : List Tree) (h : Heap) :
    allocTree (.seq xs) h =
      ((allocTreeList xs h).1 ++ [.lst (allocTreeList xs h).2],
        (allocTreeList xs h).1.length) := by
  rw [allocTree.eq_def]

@[simp]
theorem allocTree_map (kvs : List (String × Tree)) (h : Heap) :
    allocTree (.map kvs) h =
      ((allocTreeDict kvs h).1 ++ [.dct (allocTreeDict kvs h).2],
        (allocTreeDict kvs h).1.length) := by
  rw [allocTree.eq_def]

@[simp]
theorem allocTreeList_nil (h : Heap) : allocTreeList [] h = (h, []) := by
  rw [allocTreeList.eq_def]

@[simp]
theorem allocTreeList_cons (x : Tree) (xs : List Tree) (h : Heap) :
    allocTreeList (x :: xs) h =
      ((allocTreeList xs (allocTree x h).1).1,
        (allocTree x h).2 :: (allocTreeList xs (allocTree x h).1).2) := by
  rw [allocTreeList.eq_def]

@[simp]
theorem allocTreeDict_nil (h : Heap) : allocTreeDict [] h = (h, []) := by
  rw [allocTreeDict.eq_def]

@[simp]
theorem allocTreeDict_cons (k : String) (v : Tree) (kvs : List (String × Tree))
    (h : Heap) :
    allocTreeDict ((k, v) :: kvs) h =
      ((allocTreeDict kvs (allocTree v h).1).1,
        ((k, (allocTree v h).2)) :: (allocTreeDict kvs (allocTree v h).1).2) := by
  rw [allocTreeDict.eq_def]

/-- The allocation contract for one tree: the heap only grows, the new root
is a fresh address representing `t`, and every freshly written container
points only into the fresh region. -/
def AllocSpec (t : Tree) (h : Heap) : Prop :=
  HeapExt h (allocTree t h).1 ∧
  h.length ≤ (allocTree t h).2 ∧
  (allocTree t h).2 < (allocTree t h).1.length ∧
  Represents (allocTree t h).1 (allocTree t h).2 t ∧
  FreshClosed h (allocTree t h).1

/-- The allocation contract for a list of element trees. -/
def AllocListSpec (xs : List Tree) (h : Heap) : Prop :=
  HeapExt h (allocTreeList xs h).1 ∧
  (allocTreeList xs h).2.length = xs.length ∧
  (∀ p ∈ (allocTreeList xs h).2.zip xs, Represents (allocTreeList xs h).1 p.1 p.2) ∧
  (∀ b ∈ (allocTreeList xs h).2, h.length ≤ b ∧ b < (allocTreeList xs h).1.length) ∧
  FreshClosed h (allocTreeList xs h).1

/-- The allocation contract for a list of dict entries. -/
def AllocDictSpec (kvs : List (String × Tree)) (h : Heap) : Prop :=
  HeapExt h (allocTreeDict kvs h).1 ∧
  (allocTreeDict kvs h).2.length = kvs.length ∧
  (∀ p ∈ (allocTreeDict kvs h).2.zip kvs, p.1.1 = p.2.1) ∧
  (∀ p ∈ (allocTreeDict kvs h).2.zip kvs,
    Represents (allocTreeDict kvs h).1 p.1.2 p.2.2) ∧
  (∀ e ∈ (allocTreeDict kvs h).2,
    h.length ≤ e.2 ∧ e.2 < (allocTreeDict kvs h).1.length) ∧
  FreshClosed h (allocTreeDict kvs h).1

theorem freshClosed_self (h : Heap) : FreshClosed h h := by
  intro b c hb hc
  rw [childOf, heapNode, List.getElem?_eq_none hb] at hc
  exact absurd hc (by simp)

theorem allocTreeList_spec (xs : List Tree)
    (hmem : ∀ x ∈ xs, ∀ h : Heap, AllocSpec x h) :
    ∀ h : Heap, AllocListSpec xs h := by
  induction xs with
  | nil =>
      intro h
      simp only [AllocListSpec, allocTreeList_nil]
      exact ⟨heapExt_refl h, by simp, by simp, by simp, freshClosed_self h⟩
  | cons x xs' ihl =>
      intro h
      obtain ⟨hext1, ha1, ha2, hrep1, hfc1⟩ := hmem x (List.mem_cons_self _ _) h
      obtain ⟨hext2, hlen2, hrep2, hbnd2, hfc2⟩ :=
        ihl (fun z hz => hmem z (List.mem_cons_of_mem _ hz)) (allocTree x h).1
      simp only [AllocListSpec, allocTreeList_cons]
      refine ⟨?_, ?_, ?_, ?_, ?_⟩
      · exact heapExt_trans hext1 hext2
      · simpa using hlen2
      · intro p hp
        simp only [List.zip_cons_cons, List.mem_cons] at hp
        rcases hp with rfl | hp
        · exact represents_ext hext2 hrep1
        · exact hrep2 p hp
      · intro b hb
        simp only [List.mem_cons] at hb
        rcases hb with rfl | hb
        · exact ⟨ha1, lt_of_lt_of_le ha2 (heapExt_length hext2)⟩
        · obtain ⟨hb1, hb2⟩ := hbnd2 b hb
          exact ⟨le_trans (le_trans ha1 (Nat.le_of_lt ha2)) hb1, hb2⟩
      · exact freshClosed_trans hext1 hext2 hfc1 hfc2

theorem allocTreeDict_spec (kvs : List (String × Tree))
    (hmem : ∀ kv ∈ kvs, ∀ h : Heap, AllocSpec kv.2 h) :
    ∀ h : Heap, AllocDictSpec kvs h := by
  induction kvs with
  | nil =>
      intro h
      simp only [AllocDictSpec, allocTreeDict_nil]
      exact ⟨heapExt_refl h, by simp, by simp, by simp, by simp, freshClosed_self h⟩
  | cons kv kvs' ihl =>
      intro h
      obtain ⟨k, v⟩ := kv
      obtain ⟨hext1, ha1, ha2, hrep1, hfc1⟩ :=
        hmem (k, v) (List.mem_cons_self _ _) h
      obtain ⟨hext2, hlen2, hkeys2, hrep2, hbnd2, hfc2⟩ :=
        ihl (fun z hz => hmem z (List.mem_cons_of_mem _ hz)) (allocTree v h).1
      simp only [AllocDictSpec, allocTreeDict_cons]
      refine ⟨?_, ?_, ?_, ?_, ?_, ?_⟩
      · exact heapExt_trans hext1 hext2
      · simpa using hlen2
      · intro p hp
        simp only [List.zip_cons_cons, List.mem_cons] at hp
        rcases hp with rfl | hp
        · rfl
        · exact hkeys2 p hp
      · intro p hp
        simp only [List.zip_cons_cons, List.mem_cons] at hp
        rcases hp with rfl | hp
        · exact represents_ext hext2 hrep1
        · exact hrep2 p hp
      · intro e he
        simp only [List.mem_cons] at he
        rcases he with rfl | he
        · exact ⟨ha1, lt_of_lt_of_le ha2 (heapExt_length hext2)⟩
        · obtain ⟨hb1, hb2⟩ := hbnd2 e he
          exact ⟨le_trans (le_trans ha1 (Nat.le_of_lt ha2)) hb1, hb2⟩
      · exact freshClosed_trans hext1 hext2 hfc1 hfc2

/-- Correctness of fresh allocation. -/
theorem allocTree_spec (t : Tree) : ∀ h : Heap, AllocSpec t h := by
  induction t using Tree.inductionOn with
  | hscalar s =>
      intro h
      simp only [AllocSpec, allocTree_scalar]
      refine ⟨⟨[.scalar s], rfl⟩, le_refl _, by simp, ?_, ?_⟩
      · exact .scalar (by rw [heapNode, List.getElem?_concat_length])
      · exact freshClosed_concat (heapExt_refl h) (freshClosed_self h)
          (.scalar s) (by simp)
  | hseq xs ihmem =>
      intro h
      obtain ⟨hext, hlen, hrep, hbnd, hfc⟩ := allocTreeList_spec xs ihmem h
      have hext' : HeapExt (allocTreeList xs h).1
          ((allocTreeList xs h).1 ++ [.lst (allocTreeList xs h).2]) :=
        ⟨[.lst (allocTreeList xs h).2], rfl⟩
      simp only [AllocSpec, allocTree_seq]
      refine ⟨?_, ?_, ?_, ?_, ?_⟩
      · exact heapExt_trans hext hext'
      · exact heapExt_length hext
      · simp
      · refine .seq (by rw [heapNode, List.getElem?_concat_length]) hlen ?_
        intro p hp
        exact represents_ext hext' (hrep p hp)
      · exact freshClosed_concat hext hfc (.lst (allocTreeList xs h).2)
          (fun c hc => (hbnd c hc).1)
  | hmap kvs ihmem =>
      intro h
      obtain ⟨hext, hlen, hkeys, hrep, hbnd, hfc⟩ := allocTreeDict_spec kvs ihmem h
      have hext' : HeapExt (allocTreeDict kvs h).1
          ((allocTreeDict kvs h).1 ++ [.dct (allocTreeDict kvs h).2]) :=
        ⟨[.dct (allocTreeDict kvs h).2], rfl⟩
      simp only [AllocSpec, allocTree_map]
      refine ⟨?_, ?_, ?_, ?_, ?_⟩
      · exact heapExt_trans hext hext'
      · exact heapExt_length hext
      · simp
      · refine .map (by rw [heapNode, List.getElem?_concat_length]) hlen hkeys ?_
        intro p hp
        exact represents_ext hext' (hrep p hp)
      · refine freshClosed_concat hext hfc (.dct (allocTreeDict kvs h).2) ?_
        intro c hc
        simp only [List.mem_map] at hc
        obtain ⟨e, he, rfl⟩ := hc
        exact (hbnd e he).1

/-- Modelled from the spec: `copy.deepcopy` (Python standard library, not
part of this repository's sources) produces a full structural copy of its
argument, constructing fresh list/dict objects throughout; for a value
representing the well-formed tree `x` this is exactly a fresh allocation of
`x`.  The single-argument call `deep_merge(x)` returns
`copy.deepcopy(args[0])`, modelled here at the heap level. -/
def deepMergeSingleHeap (x : Tree) (h : Heap) : Heap × Nat := allocTree x h

/-- C7: `deep_merge(x)` for a well-formed tree `x` (represented at address
`a` in heap `h`) returns a value that (i) is structurally equal to `x`
(value-level: `deep_merge [x] = ok x`; heap-level: the new root again
represents `x`), and (ii) shares no object with `x`: everything reachable
from the new root is freshly allocated (`≥ h.length`), everything reachable
from `x` is old (`< h.length`), so the two object graphs are disjoint —
mutating one can never affect the other. -/
theorem deep_merge_single_deep_copy (x : Tree) (h : Heap) (a : Nat)
    (hrep : Represents h a x) :
    deep_merge [x] = .ok x ∧
    Represents (deepMergeSingleHeap x h).1 (deepMergeSingleHeap x h).2 x ∧
    (∀ b, Reaches (deepMergeSingleHeap x h).1 (deepMergeSingleHeap x h).2 b →
      h.length ≤ b) ∧
    (∀ b, Reaches (deepMergeSingleHeap x h).1 a b → b < h.length) ∧
    (∀ b c, Reaches (deepMergeSingleHeap x h).1 (deepMergeSingleHeap x h).2 b →
      Reaches (deepMergeSingleHeap x h).1 a c → b ≠ c) := by
  obtain ⟨hext, hfresh, _, hrep', hfc⟩ := allocTree_spec x h
  have hold : ∀ b, Reaches (deepMergeSingleHeap x h).1 a b → b < h.length := by
    intro b hr
    exact reaches_lt_length hrep (reaches_of_ext hext hrep b hr)
  refine ⟨by simp, hrep', ?_, hold, ?_⟩
  · exact freshClosed_reaches hfc hfresh
  · intro b c hb hc
    have h1 := freshClosed_reaches hfc hfresh b hb
    have h2 := hold c hc
    omega

/-- Witness for `deep_merge_single_deep_copy`: the tree `{"k": 1}`
represented at address 1 of the two-node heap `[1, {"k": @0}]`. -/
theorem deep_merge_single_deep_copy_witness :
    deep_merge [Tree.map [("k", Tree.scalar (.int 1))]] =
        .ok (Tree.map [("k", Tree.scalar (.int 1))]) ∧
    Represents
        (deepMergeSingleHeap (Tree.map [("k", Tree.scalar (.int 1))])
          [PyNode.scalar (.int 1), PyNode.dct [("k", 0)]]).1
        (deepMergeSingleHeap (Tree.map [("k", Tree.scalar (.int 1))])
          [PyNode.scalar (.int 1), PyNode.dct [("k", 0)]]).2
        (Tree.map [("k", Tree.scalar (.int 1))]) ∧
    (∀ b, Reaches
        (deepMergeSingleHeap (Tree.map [("k", Tree.scalar (.int 1))])
          [PyNode.scalar (.int 1), PyNode.dct [("k", 0)]]).1
        (deepMergeSingleHeap (Tree.map [("k", Tree.scalar (.int 1))])
          [PyNode.scalar (.int 1), PyNode.dct [("k", 0)]]).2 b →
      ([PyNode.scalar (.int 1), PyNode.dct [("k", 0)]] : Heap).length ≤ b) ∧
    (∀ b, Reaches
        (deepMergeSingleHeap (Tree.map [("k", Tree.scalar (.int 1))])
          [PyNode.scalar (.int 1), PyNode.dct [("k", 0)]]).1 1 b →
      b < ([PyNode.scalar (.int 1), PyNode.dct [("k", 0)]] : Heap).length) ∧
    (∀ b c, Reaches
        (deepMergeSingleHeap (Tree.map [("k", Tree.scalar (.int 1))])
          [PyNode.scalar (.int 1), PyNode.dct [("k", 0)]]).1
        (deepMergeSingleHeap (Tree.map [("k", Tree.scalar (.int 1))])
          [PyNode.scalar (.int 1), PyNode.dct [("k", 0)]]).2 b →
      Reaches
        (deepMergeSingleHeap (Tree.map [("k", Tree.scalar (.int 1))])
          [PyNode.scalar (.int 1), PyNode.dct [("k", 0)]]).1 1 c →
      b ≠ c) :=
  deep_merge_single_deep_copy (Tree.map [("k", Tree.scalar (.int 1))])
    [PyNode.scalar (.int 1), PyNode.dct [("k", 0)]] 1
    (@Represents.map [PyNode.scalar (.int 1), PyNode.dct [("k", 0)]] 1
      [("k", 0)] [("k", Tree.scalar (.int 1))] (by rfl) (by rfl)
      (by intro p hp; simp at hp; rw [hp])
      (by
        intro p hp
        simp at hp
        rw [hp]
        exact Represents.scalar (by rfl)))

/-! ## Cycle detection in `deep_map` (C9)

A reference cycle cannot exist in an inductive `Tree`, so cyclic inputs are
modelled on a Python object graph: a total map from addresses to objects
(Python object graphs have no dangling references).  `_deep_map` is
embedded with an explicit stack-depth budget: each recursive call consumes
one unit, and an exhausted budget is the `RuntimeError: maximum recursion
depth exceeded` that CPython raises at its recursion limit.  `deep_map`
catches exactly that error and re-raises it as
`dbt.exceptions.RecursionException('Cycle detected in deep_map')`; the
`DbtConfigError` raised by `_deep_map` for non-Tree-shaped values (modelled
by the `other` node kind) propagates unchanged.  Every function here is
total, so "`deep_map` terminates" holds by construction: on a cyclic input
it returns the CycleDetected error rather than diverging. -/

/-- An object in a (possibly cyclic) Python object graph.  `other` stands
for any value outside {list, dict, int, float, str, None, bool} (e.g. a
set), which `_deep_map` rejects with its shape error. -/
inductive GNode where
  | scalar (s : Scalar)
  | lst (elems : List Nat)
  | dct (entries : List (String × Nat))
  | other (tag : String)

/-- A Python object graph: every address holds an object. -/
def Graph := Nat → GNode

/-- `b` is the address of a direct element value of the container at `a`. -/
def gchildOf (g : Graph) (a b : Nat) : Prop :=
  match g a with
  | .lst as => b ∈ as
  | .dct es => b ∈ es.map Prod.snd
  | _ => False

/-- The value rooted at `a` contains a reference cycle: some container
reachable from `a` directly or transitively contains itself. -/
def HasCycleFrom (g : Graph) (a : Nat) : Prop :=
  ∃ b, Relation.ReflTransGen (gchildOf g) a b ∧ Relation.TransGen (gchildOf g) b b

/-- The graph contains no non-Tree-shaped objects. -/
def TreeKinded (g : Graph) : Prop := ∀ n tag, g n ≠ GNode.other tag

/-- Errors `_deep_map` can raise. -/
inductive MapErr where
  | recursionLimit      -- RuntimeError: maximum recursion depth exceeded
  | shapeError (tag : String)  -- DbtConfigError for a non-Tree-shaped value
deriving DecidableEq

mutual

/-- `_deep_map(func, value, keypath)` on the object graph, with `fuel` the
remaining stack depth before CPython's recursion limit. -/
def deepMapG (f : Scalar → List PathSeg → Scalar) (g : Graph) :
    Nat → Nat → List PathSeg → Except MapErr Tree
  | 0, _, _ => .error .recursionLimit
  | fuel + 1, a, p =>
      match g a with
      | .scalar s => .ok (.scalar (f s p))
      | .lst as =>
          match deepMapGList f g fuel as p 0 with
          | .ok ts => .ok (.seq ts)
          | .error e => .error e
      | .dct es =>
          match deepMapGDict f g fuel es p with
          | .ok ts => .ok (.map ts)
          | .error e => .error e
      | .other tag => .error (.shapeError tag)
termination_by fuel => (fuel, 0)
decreasing_by
  · apply Prod.Lex.left
    omega
  · apply Prod.Lex.left
    omega

/-- The list comprehension of `_deep_map` over `enumerate(value)`. -/
def deepMapGList (f : Scalar → List PathSeg → Scalar) (g : Graph) :
    Nat → List Nat → List PathSeg → Nat → Except MapErr (List Tree)
  | _, [], _, _ => .ok []
  | fuel, a :: as, p, i =>
      match deepMapG f g fuel a (p ++ [.idx i]) with
      | .error e => .error e
      | .ok t =>
          match deepMapGList f g fuel as p (i + 1) with
          | .error e => .error e
          | .ok ts => .ok (t :: ts)
termination_by fuel as => (fuel, as.length + 1)
decreasing_by
  · apply Prod.Lex.right
    omega
  · apply Prod.Lex.right
    simp only [List.length_cons]
    omega

/-- The dict comprehension of `_deep_map` over `value.items()`. -/
def deepMapGDict (f : Scalar → List PathSeg → Scalar) (g : Graph) :
    Nat → List (String × Nat) → List PathSeg → Except MapErr (List (String × Tree))
  | _, [], _ => .ok []
  | fuel, (k, b) :: es, p =>
      match deepMapG f g fuel b (p ++ [.key k]) with
      | .error e => .error e
      | .ok t =>
          match deepMapGDict f g fuel es p with
          | .error e => .error e
          | .ok ts => .ok ((k, t) :: ts)
termination_by fuel es => (fuel, es.length + 1)
decreasing_by
  · apply Prod.Lex.right
    omega
  · apply Prod.Lex.right
    simp only [List.length_cons]
    omega

end

@[simp]
theorem deepMapG_zero (f : Scalar → List PathSeg → Scalar) (g : Graph)
    (a : Nat) (p : List PathSeg) :
    deepMapG f g 0 a p = .error .recursionLimit := by
  rw [deepMapG.eq_def]

theorem deepMapG_succ (f : Scalar → List PathSeg → Scalar) (g : Graph)
    (fuel a : Nat) (p : List PathSeg) :
    deepMapG f g (fuel + 1) a p =
      match g a with
      | .scalar s => .ok (.scalar (f s p))
      | .lst as =>
          match deepMapGList f g fuel as p 0 with
          | .ok ts => .ok (.seq ts)
          | .error e => .error e
      | .dct es =>
          match deepMapGDict f g fuel es p with
          | .ok ts => .ok (.map ts)
          | .error e => .error e
      | .other tag => .error (.shapeError tag) := by
  rw [deepMapG.eq_def]

theorem deepMapG_succ_scalar (f : Scalar → List PathSeg → Scalar) (g : Graph)
    (fuel a : Nat) (p : List PathSeg) (s : Scalar) (hga : g a = .scalar s) :
    deepMapG f g (fuel + 1) a p = .ok (.scalar (f s p)) := by
  rw [deepMapG_succ, hga]

theorem deepMapG_succ_lst (f : Scalar → List PathSeg → Scalar) (g : Graph)
    (fuel a : Nat) (p : List PathSeg) (as : List Nat) (hga : g a = .lst as) :
    deepMapG f g (fuel + 1) a p =
      match deepMapGList f g fuel as p 0 with
      | .ok ts => .ok (.seq ts)
      | .error e => .error e := by
  rw [deepMapG_succ, hga]

theorem deepMapG_succ_dct (f : Scalar → List PathSeg → Scalar) (g : Graph)
    (fuel a : Nat) (p : List PathSeg) (es : List (String × Nat))
    (hga : g a = .dct es) :
    deepMapG f g (fuel + 1) a p =
      match deepMapGDict f g fuel es p with
      | .ok ts => .ok (.map ts)
      | .error e => .error e := by
  rw [deepMapG_succ, hga]

@[simp]
theorem deepMapGList_nil (f : Scalar → List PathSeg → Scalar) (g : Graph)
    (fuel : Nat) (p : List PathSeg) (i : Nat) :
    deepMapGList f g fuel [] p i = .ok [] := by
  rw [deepMapGList.eq_def]

theorem deepMapGList_cons (f : Scalar → List PathSeg → Scalar) (g : Graph)
    (fuel a : Nat) (as : List Nat) (p : List PathSeg) (i : Nat) :
    deepMapGList f g fuel (a :: as) p i =
      match deepMapG f g fuel a (p ++ [.idx i]) with
      | .error e => .error e
      | .ok t =>
          match deepMapGList f g fuel as p (i + 1) with
          | .error e => .error e
          | .ok ts => .ok (t :: ts) := by
  rw [deepMapGList.eq_def]

@[simp]
theorem deepMapGDict_nil (f : Scalar → List PathSeg → Scalar) (g : Graph)
    (fuel : Nat) (p : List PathSeg) :
    deepMapGDict f g fuel [] p = .ok [] := by
  rw [deepMapGDict.eq_def]

theorem deepMapGDict_cons (f : Scalar → List PathSeg → Scalar) (g : Graph)
    (fuel : Nat) (k : String) (b : Nat) (es : List (String × Nat))
    (p : List PathSeg) :
    deepMapGDict f g fuel ((k, b) :: es) p =
      match deepMapG f g fuel b (p ++ [.key k]) with
      | .error e => .error e
      | .ok t =>
          match deepMapGDict f g fuel es p with
          | .error e => .error e
          | .ok ts => .ok ((k, t) :: ts) := by
  rw [deepMapGDict.eq_def]

/-- On a tree-kinded graph, the only possible failure of `_deep_map` is
recursion exhaustion. -/
theorem deepMapG_ok_or_rec (f : Scalar → List PathSeg → Scalar) (g : Graph)
    (htk : TreeKinded g) :
    ∀ fuel a p, (∃ t, deepMapG f g fuel a p = .ok t) ∨
      deepMapG f g fuel a p = .error .recursionLimit := by
  intro fuel
  induction fuel with
  | zero => intro a p; exact Or.inr (by simp)
  | succ fuel ih =>
      have hlist : ∀ (as : List Nat) (p : List PathSeg) (i : Nat),
          (∃ ts, deepMapGList f g fuel as p i = .ok ts) ∨
            deepMapGList f g fuel as p i = .error .recursionLimit := by
        intro as
        induction as with
        | nil => intro p i; exact Or.inl ⟨[], by simp⟩
        | cons a as' ihl =>
            intro p i
            rw [deepMapGList_cons]
            rcases ih a (p ++ [.idx i]) with ⟨t, ht⟩ | ht
            · rw [ht]
              rcases ihl p (i + 1) with ⟨ts, hts⟩ | hts
              · rw [hts]
                exact Or.inl ⟨t :: ts, rfl⟩
              · rw [hts]
                exact Or.inr rfl
            · rw [ht]
              exact Or.inr rfl
      have hdict : ∀ (es : List (String × Nat)) (p : List PathSeg),
          (∃ ts, deepMapGDict f g fuel es p = .ok ts) ∨
            deepMapGDict f g fuel es p = .error .recursionLimit := by
        intro es
        induction es with
        | nil => intro p; exact Or.inl ⟨[], by simp⟩
        | cons e es' ihl =>
            intro p
            obtain ⟨k, b⟩ := e
            rw [deepMapGDict_cons]
            rcases ih b (p ++ [.key k]) with ⟨t, ht⟩ | ht
            · rw [ht]
              rcases ihl p with ⟨ts, hts⟩ | hts
              · rw [hts]
                exact Or.inl ⟨(k, t) :: ts, rfl⟩
              · rw [hts]
                exact Or.inr rfl
            · rw [ht]
              exact Or.inr rfl
      intro a p
      cases hga : g a with
      | scalar s =>
          rw [deepMapG_succ_scalar f g fuel a p s hga]
          exact Or.inl ⟨.scalar (f s p), rfl⟩
      | lst as =>
          rw [deepMapG_succ_lst f g fuel a p as hga]
          rcases hlist as p 0 with ⟨ts, hts⟩ | hts
          · rw [hts]
            exact Or.inl ⟨.seq ts, rfl⟩
          · rw [hts]
            exact Or.inr rfl
      | dct es =>
          rw [deepMapG_succ_dct f g fuel a p es hga]
          rcases hdict es p with ⟨ts, hts⟩ | hts
          · rw [hts]
            exact Or.inl ⟨.map ts, rfl⟩
          · rw [hts]
            exact Or.inr rfl
      | other tag => exact absurd hga (htk a tag)

/-- A value with a reachable cycle has a direct child with a reachable
cycle. -/
theorem hasCycleFrom_step {g : Graph} {a : Nat} (hcyc : HasCycleFrom g a) :
    ∃ c, gchildOf g a c ∧ HasCycleFrom g c := by
  obtain ⟨b, hab, hbb⟩ := hcyc
  rcases Relation.ReflTransGen.cases_head hab with rfl | ⟨c, hac, hcb⟩
  · obtain ⟨c, hac, hca⟩ := Relation.TransGen.head'_iff.mp hbb
    exact ⟨c, hac, a, hca, hbb⟩
  · exact ⟨c, hac, b, hcb, hbb⟩

/-- On a cyclic input, `_deep_map` exhausts every recursion budget. -/
theorem deepMapG_cycle (f : Scalar → List PathSeg → Scalar) (g : Graph)
    (htk : TreeKinded g) :
    ∀ fuel a, HasCycleFrom g a →
      ∀ p, deepMapG f g fuel a p = .error .recursionLimit := by
  intro fuel
  induction fuel with
  | zero => intro a _ p; simp
  | succ fuel ih =>
      intro a hcyc p
      obtain ⟨c, hchild, hcyc'⟩ := hasCycleFrom_step hcyc
      have herr : ∀ p', deepMapG f g fuel c p' = .error .recursionLimit :=
        ih c hcyc'
      have hlist : ∀ (as : List Nat), c ∈ as → ∀ p' i,
          deepMapGList f g fuel as p' i = .error .recursionLimit := by
        intro as
        induction as with
        | nil => intro hmem; exact absurd hmem (by simp)
        | cons a0 as' ihl =>
            intro hmem p' i
            rw [deepMapGList_cons]
            rcases deepMapG_ok_or_rec f g htk fuel a0 (p' ++ [PathSeg.idx i]) with
              ⟨t, ht⟩ | ht
            · rw [ht]
              have hc' : c ∈ as' := by
                rcases List.mem_cons.mp hmem with rfl | hm
                · rw [herr (p' ++ [PathSeg.idx i])] at ht
                  exact absurd ht (by simp)
                · exact hm
              rw [ihl hc' p' (i + 1)]
            · rw [ht]
      have hdict : ∀ (es : List (String × Nat)), c ∈ es.map Prod.snd → ∀ p',
          deepMapGDict f g fuel es p' = .error .recursionLimit := by
        intro es
        induction es with
        | nil => intro hmem; exact absurd hmem (by simp)
        | cons e es' ihl =>
            intro hmem p'
            obtain ⟨k, b⟩ := e
            rw [deepMapGDict_cons]
            have hb : c = b ∨ c ∈ es'.map Prod.snd := by
              simp only [List.map_cons] at hmem
              exact List.mem_cons.mp hmem
            rcases deepMapG_ok_or_rec f g htk fuel b (p' ++ [PathSeg.key k]) with
              ⟨t, ht⟩ | ht
            · rw [ht]
              have hc' : c ∈ es'.map Prod.snd := by
                rcases hb with rfl | hm
                · rw [herr (p' ++ [PathSeg.key k])] at ht
                  exact absurd ht (by simp)
                · exact hm
              rw [ihl hc' p']
            · rw [ht]
      rw [gchildOf] at hchild
      cases hga : g a with
      | scalar s => rw [hga] at hchild; exact absurd hchild (by simp)
      | lst as =>
          rw [hga] at hchild
          rw [deepMapG_succ_lst f g fuel a p as hga, hlist as hchild p 0]
      | dct es =>
          rw [hga] at hchild
          rw [deepMapG_succ_dct f g fuel a p es hga, hdict es hchild p]
      | other tag => exact absurd hga (htk a tag)

/-- CPython's default recursion limit (`sys.getrecursionlimit()`). -/
def RECURSION_LIMIT : Nat := 1000

/-- Errors `deep_map` can raise. -/
inductive TopErr where
  | cycleDetected       -- dbt.exceptions.RecursionException: Cycle detected in deep_map
  | shapeError (tag : String)  -- the DbtConfigError of _deep_map, propagated unchanged
deriving DecidableEq

/-- `deep_map(func, value)` on the object graph: run `_deep_map` under the
recursion limit and convert exactly the recursion-exhaustion RuntimeError
into the distinct RecursionException. -/
def deep_map_graph (f : Scalar → List PathSeg → Scalar) (g : Graph) (a : Nat) :
    Except TopErr Tree :=
  match deepMapG f g RECURSION_LIMIT a [] with
  | .ok t => .ok t
  | .error .recursionLimit => .error .cycleDetected
  | .error (.shapeError tag) => .error (.shapeError tag)

/-- C9: on every tree-kinded input containing a reference cycle, `deep_map`
(a total function here, so it terminates) fails with the CycleDetected
error (`RecursionException`), which is a distinct error kind from the
ShapeError raised for non-Tree-shaped values. -/
theorem deep_map_cycle_detected (f : Scalar → List PathSeg → Scalar)
    (g : Graph) (a : Nat) (htk : TreeKinded g) (hcyc : HasCycleFrom g a) :
    deep_map_graph f g a = .error .cycleDetected ∧
    (∀ tag, (TopErr.cycleDetected : TopErr) ≠ TopErr.shapeError tag) := by
  constructor
  · rw [deep_map_graph, deepMapG_cycle f g htk RECURSION_LIMIT a hcyc []]
  · intro tag h
    exact TopErr.noConfusion h

/-- The self-containing list `x = [...]; x.append(x)`: one node whose only
element is itself. -/
def selfList : Graph := fun _ => GNode.lst [0]

/-- Witness for `deep_map_cycle_detected`: `deep_map` on the self-containing
list reports a cycle. -/
theorem deep_map_cycle_detected_witness :
    deep_map_graph (fun s _ => s) selfList 0 = .error .cycleDetected ∧
    (∀ tag, (TopErr.cycleDetected : TopErr) ≠ TopErr.shapeError tag) :=
  deep_map_cycle_detected (fun s _ => s) selfList 0
    (fun n tag h => GNode.noConfusion h)
    ⟨0, Relation.ReflTransGen.refl,
      Relation.TransGen.single (show gchildOf selfList 0 0 by
        rw [gchildOf, selfList]
        simp)⟩

end DbtUtils
